import Mathlib

/-!
# Verification of the terminology-validated FHIR gateway

A shallow embedding of the core of the `fhir_client` repository
(`src/client.py`, `src/terminology.py`, `src/integrated_client.py`):
the alias table, the five vocabulary operations, validate-before-write
resource creation, recursive display enrichment, hierarchy search and
code translation, together with proofs of the specified properties.

Python records are modelled as a JSON-like value tree.  Fallible calls
return `Except Exn`, where `Exn` models the Python exceptions that can
cross the relevant frames.  Remote behaviour (the terminology server
transport and the data server) is a parameter of each operation.
-/

/-- A JSON-like Python value: the records and protocol bodies the client
manipulates.  Numbers are kept as opaque literals (no claim depends on
numeric computation).  Python `None` is `null`. -/
inductive JSON where
  | null : JSON
  | bool : Bool → JSON
  | num : String → JSON
  | str : String → JSON
  | arr : List JSON → JSON
  | obj : List (String × JSON) → JSON

namespace JSON

/-- First-match association-list lookup: Python `d[k]` / `d.get(k)` on a
dict (Python dicts have unique keys, so first-match is exact). -/
def lookupJ : List (String × JSON) → String → Option JSON
  | [], _ => none
  | (k, v) :: rest, key => if k = key then some v else lookupJ rest key

/-- Python `d[k] = v`: replace the value at the first occurrence of `k`,
keeping its position; append at the end when `k` is absent (Python
insertion-order semantics). -/
def setKey : List (String × JSON) → String → JSON → List (String × JSON)
  | [], key, v => [(key, v)]
  | (k, w) :: rest, key, v =>
    if k = key then (k, v) :: rest else (k, w) :: setKey rest key v

/-- Python `k in d` for a dict. -/
def hasKey (fields : List (String × JSON)) (key : String) : Bool :=
  (lookupJ fields key).isSome

/-- Python truthiness of a value (`if x:`). -/
def truthy : JSON → Bool
  | .null => false
  | .bool b => b
  | .num s => !(s == "0" || s == "0.0" || s == "-0" || s == "0.00")
  | .str s => !(s == "")
  | .arr xs => !xs.isEmpty
  | .obj fields => !fields.isEmpty

/-- A leaf value (not a dict and not a list). -/
def isLeaf : JSON → Bool
  | .obj _ => false
  | .arr _ => false
  | _ => true

/-- Python `x == "s"` where `x` is an arbitrary value: true exactly for
the string itself. -/
def isStr : JSON → String → Bool
  | .str t, s => t == s
  | _, _ => false

/-- Python `d.get(k) == "s"` (a missing key gives `None`, which compares
unequal to every string). -/
def optIsStr : Option JSON → String → Bool
  | some j, s => isStr j s
  | none, _ => false

/-- Occurrence of `needle` as a contiguous run inside a character list
(Python substring membership `needle in s`). -/
def infixOf (needle : List Char) : List Char → Bool
  | [] => needle.isEmpty
  | c :: t => needle.isPrefixOf (c :: t) || infixOf needle t

end JSON

/-- The Python exceptions observable at the boundaries the claims talk
about.  `validationError` carries the offending (code, system) pair (the
source formats them into the message string).  `attributeError`,
`typeError` and `keyError` model the built-in exceptions raised by
attribute access, iteration and indexing on ill-shaped values. -/
inductive Exn where
  | fhirClientError : String → Exn
  | validationError : (code : String) → (system : String) → Exn
  | attributeError : String → Exn
  | typeError : String → Exn
  | keyError : String → Exn
  | other : String → Exn
deriving DecidableEq, Repr

/-- The behaviour of `self.client._make_request(method, endpoint, params)`
as seen by `TerminologyService`: a function from the request to either a
decoded JSON body or a raised exception.  (The repository ships no
`_make_request`; see `repoMakeRequest`.) -/
def MakeRequest : Type :=
  String → String → List (String × JSON) → Except Exn JSON

/-- ASCII lower-casing of one character (Python `str.lower` on the ASCII
alias names the table uses). -/
def lowerChar (c : Char) : Char :=
  if 65 ≤ c.toNat ∧ c.toNat ≤ 90 then Char.ofNat (c.toNat + 32) else c

/-- Python `s.lower()` (character-wise; the alias table keys are ASCII). -/
def pyLower (s : String) : String := ⟨s.data.map lowerChar⟩

namespace TerminologyService

/-- The fixed alias table `TerminologyService.CODE_SYSTEMS`
(src/terminology.py). -/
def CODE_SYSTEMS : List (String × String) :=
  [("snomed", "http://snomed.info/sct"),
   ("loinc", "http://loinc.org"),
   ("icd10", "http://hl7.org/fhir/sid/icd-10"),
   ("icd10cm", "http://hl7.org/fhir/sid/icd-10-cm"),
   ("rxnorm", "http://www.nlm.nih.gov/research/umls/rxnorm"),
   ("cpt", "http://www.ama-assn.org/go/cpt"),
   ("ucum", "http://unitsofmeasure.org"),
   ("ndc", "http://hl7.org/fhir/sid/ndc")]

/-- `TerminologyService.get_code_system_url`:
`self.CODE_SYSTEMS.get(code_system.lower(), code_system)`. -/
def get_code_system_url (code_system : String) : String :=
  (CODE_SYSTEMS.lookup (pyLower code_system)).getD code_system

/-- Python `if x:` on an optional-string argument (`None` and the empty
string are falsy). -/
def optTruthy : Option String → Bool
  | some s => !(s == "")
  | none => false

/-- Append a string-valued query parameter when the optional argument is
truthy (the `if arg: params[key] = arg` pattern of src/terminology.py). -/
def addParamStr (params : List (String × JSON)) (key : String) :
    Option String → List (String × JSON)
  | some s => if s = "" then params else params ++ [(key, JSON.str s)]
  | none => params

/-- Python `needle in x` for an arbitrary value: key membership on a
dict, element equality on a list, substring on a string; iteration over
any other value raises TypeError. -/
def pyIn (needle : String) : JSON → Except Exn Bool
  | .obj fields => .ok (JSON.hasKey fields needle)
  | .arr xs => .ok (xs.any fun x => JSON.isStr x needle)
  | .str s => .ok (JSON.infixOf needle.data s.data)
  | _ => .error (.typeError "argument is not iterable")

/-- `TerminologyService.validate_code`: builds the query parameters,
picks the endpoint, and forwards to `self.client._make_request`; its
try/except re-raises FHIRClientError, so every exception of the
transport propagates unchanged. -/
def validate_code (tx : MakeRequest) (code system : String)
    (display value_set_url : Option String) : Except Exn JSON :=
  let system_url := get_code_system_url system
  let params0 : List (String × JSON) :=
    [("code", JSON.str code), ("system", JSON.str system_url)]
  let params1 := addParamStr params0 "display" display
  let params2 := addParamStr params1 "url" value_set_url
  let endpoint :=
    if optTruthy value_set_url then "ValueSet/$validate-code"
    else "CodeSystem/$validate-code"
  tx "GET" endpoint params2

/-- The scan of `is_valid_code` over the `parameter` list: return the
`valueBoolean` (default `False`) of the first parameter named `result`.
A non-dict element makes `param.get` raise AttributeError, which the
enclosing `except Exception` turns into `False`, so the scan stops
there. -/
def resultScan : List JSON → JSON
  | [] => JSON.bool false
  | JSON.obj f :: rest =>
    if JSON.optIsStr (JSON.lookupJ f "name") "result" then
      (JSON.lookupJ f "valueBoolean").getD (JSON.bool false)
    else resultScan rest
  | _ :: _ => JSON.bool false

/-- The body-level part of `is_valid_code` on a successful response:
`result.get("parameter", [])` iterated.  Every non-(dict holding a
list) shape ends as `False`: a missing key yields the empty default, a
non-list value either iterates to non-dict items (AttributeError,
caught) or fails to iterate (TypeError, caught). -/
def is_valid_result : JSON → JSON
  | JSON.obj fields =>
    match JSON.lookupJ fields "parameter" with
    | some (JSON.arr ps) => resultScan ps
    | _ => JSON.bool false
  | _ => JSON.bool false

/-- `TerminologyService.is_valid_code`: total — the catch-all
`except Exception: return False` makes every failure of the underlying
call, and every ill-shaped response, come out as `False`.  The returned
value is whatever `param.get("valueBoolean", False)` produced (the
source returns it unchecked). -/
def is_valid_code (tx : MakeRequest) (code system : String) : JSON :=
  match validate_code tx code system none none with
  | .error _ => JSON.bool false
  | .ok body => is_valid_result body

/-- `TerminologyService.lookup_code`: `system.lower()` inside
`get_code_system_url` raises AttributeError for a non-string system
(the dynamic call sites of enrichment pass raw coding fields); otherwise
the call is forwarded to the transport and re-raised errors propagate. -/
def lookup_code (tx : MakeRequest) (system code : JSON)
    (properties : Option (List String)) : Except Exn JSON :=
  match system with
  | JSON.str s =>
    let params0 : List (String × JSON) :=
      [("system", JSON.str (get_code_system_url s)), ("code", code)]
    let params := match properties with
      | some ps =>
        if ps.isEmpty then params0
        else params0 ++ [("property", JSON.arr (ps.map JSON.str))]
      | none => params0
    tx "GET" "CodeSystem/$lookup" params
  | _ => Except.error (Exn.attributeError "lower on non-string system")

/-- The scan of `get_display_name` over the `parameter` list: the
`valueString` (default `None`) of the first parameter named `display`;
a non-dict element raises, which the catch-all turns into `None`. -/
def displayScan : List JSON → JSON
  | [] => JSON.null
  | JSON.obj f :: rest =>
    if JSON.optIsStr (JSON.lookupJ f "name") "display" then
      (JSON.lookupJ f "valueString").getD JSON.null
    else displayScan rest
  | _ :: _ => JSON.null

/-- Body-level part of `get_display_name` on a successful response
(every ill-shaped body collapses to `None` through the catch-all). -/
def display_result : JSON → JSON
  | JSON.obj fields =>
    match JSON.lookupJ fields "parameter" with
    | some (JSON.arr ps) => displayScan ps
    | _ => JSON.null
  | _ => JSON.null

/-- `TerminologyService.get_display_name`: total — `except Exception:
return None` makes every failure come out as `None` (modelled as
`JSON.null`, which is Python `None`). -/
def get_display_name (tx : MakeRequest) (system code : JSON) : JSON :=
  match lookup_code tx system code none with
  | .error _ => JSON.null
  | .ok body => display_result body

/-- `TerminologyService.expand_value_set`: conditional query-parameter
construction, endpoint choice by value-set id, transport passthrough. -/
def expand_value_set (tx : MakeRequest)
    (value_set_url value_set_id filter_text : Option String)
    (offset count : Int) : Except Exn JSON :=
  let p0 := addParamStr [] "url" value_set_url
  let p1 := addParamStr p0 "filter" filter_text
  let p2 := if offset > 0 then p1 ++ [("offset", JSON.num (toString offset))] else p1
  let p3 := if count ≠ 100 then p2 ++ [("count", JSON.num (toString count))] else p2
  let endpoint :=
    if optTruthy value_set_id then
      "ValueSet/" ++ value_set_id.getD "" ++ "/$expand"
    else "ValueSet/$expand"
  tx "GET" endpoint p3

/-- `TerminologyService.search_value_set`: expansion guarded by a
catch-all — any failure, and any ill-shaped body, yields the empty
list; on a well-shaped body the raw `contains` value is returned. -/
def search_value_set (tx : MakeRequest) (value_set_url search_text : String)
    (max_results : Int) : JSON :=
  match expand_value_set tx (some value_set_url) none (some search_text) 0 max_results with
  | .error _ => JSON.arr []
  | .ok body =>
    match body with
    | JSON.obj fields =>
      match JSON.lookupJ fields "expansion" with
      | some (JSON.obj ef) => (JSON.lookupJ ef "contains").getD (JSON.arr [])
      | some _ => JSON.arr []
      | none => JSON.arr []
    | _ => JSON.arr []

/-- `TerminologyService.translate_code`: the source system may be a raw
coding field (any value); `.lower()` on a non-string raises before any
request is made.  Transport errors propagate. -/
def translate_code (tx : MakeRequest) (code source_system : JSON)
    (target_system : String) (concept_map_url : Option String) : Except Exn JSON :=
  match source_system with
  | JSON.str s =>
    let params0 : List (String × JSON) :=
      [("code", code), ("system", JSON.str (get_code_system_url s)),
       ("targetSystem", JSON.str (get_code_system_url target_system))]
    tx "GET" "ConceptMap/$translate" (addParamStr params0 "url" concept_map_url)
  | _ => Except.error (Exn.attributeError "lower on non-string system")

/-- `TerminologyService.check_subsumption`: parameter construction and
transport passthrough (codeB comes from a raw coding field). -/
def check_subsumption (tx : MakeRequest) (code_a : String) (code_b : JSON)
    (system : String) : Except Exn JSON :=
  let system_url := get_code_system_url system
  tx "GET" "CodeSystem/$subsumes"
    [("codeA", JSON.str code_a), ("codeB", code_b), ("system", JSON.str system_url)]

end TerminologyService

namespace FHIRClient

/-- The attribute names class `FHIRClient` (src/client.py) defines: its
full method list.  `_make_request` is not among them. -/
def methods : List String :=
  ["__init__", "create_resource", "read_resource", "update_resource",
   "delete_resource", "search", "get_capability_statement", "close"]

/-- The data-server side of a POST: what `session.post` followed by
`raise_for_status` and `.json()` produce for a given resource — a
decoded body, or the message of a raised requests exception (which
`create_resource` converts to FHIRClientError). -/
def DataServer : Type := JSON → Except String JSON

/-- `FHIRClient.create_resource`: reject a resource without
`resourceType`, otherwise POST it; the second component records the
write calls actually issued to the data server. -/
def create_resource (ds : DataServer) (resource : JSON) :
    Except Exn JSON × List JSON :=
  match TerminologyService.pyIn "resourceType" resource with
  | .error e => (.error e, [])
  | .ok b =>
    if b then
      match resource with
      | JSON.obj _ =>
        match ds resource with
        | .ok body => (.ok body, [resource])
        | .error msg => (.error (Exn.fhirClientError msg), [resource])
      | _ => (.error (.typeError "string indices must be integers"), [])
    else (.error (Exn.fhirClientError "Resource must have resourceType field"), [])

end FHIRClient

/-- `self.client._make_request(...)` when the client is this
repository FHIRClient: the class defines no attribute named
`_make_request` (see `FHIRClient.methods`), so the attribute lookup
itself raises AttributeError on every call, before any request is
sent. -/
def repoMakeRequest : MakeRequest := fun _ _ _ =>
  Except.error (Exn.attributeError "FHIRClient object has no attribute")

namespace IntegratedFHIRClient

/-- `IntegratedFHIRClient.create_observation`: gate on
`is_valid_code` when validation is enabled (the explicit `validate`
argument overrides the client flag), then build the Observation and
forward it to `FHIRClient.create_resource`.  The write list records the
data-server calls. -/
def create_observation (tx : MakeRequest) (ds : FHIRClient.DataServer)
    (validate_codes : Bool) (patient_id code system value unit_ status : String)
    (validate : Option Bool) : Except Exn JSON × List JSON :=
  let should_validate := validate.getD validate_codes
  if should_validate && !(JSON.truthy (TerminologyService.is_valid_code tx code system))
  then (Except.error (Exn.validationError code system), [])
  else
    let display := TerminologyService.get_display_name tx (JSON.str system) (JSON.str code)
    let system_url := TerminologyService.get_code_system_url system
    let observation : JSON := JSON.obj
      [("resourceType", JSON.str "Observation"),
       ("status", JSON.str status),
       ("code", JSON.obj
         [("coding", JSON.arr [JSON.obj
            [("system", JSON.str system_url),
             ("code", JSON.str code),
             ("display", if JSON.truthy display then display else JSON.str code)]]),
          ("text", if JSON.truthy display then display else JSON.str code)]),
       ("subject", JSON.obj [("reference", JSON.str ("Patient/" ++ patient_id))]),
       ("valueQuantity", JSON.obj
         [("value", JSON.num value),
          ("unit", JSON.str unit_),
          ("system", JSON.str "http://unitsofmeasure.org"),
          ("code", JSON.str unit_)])]
    FHIRClient.create_resource ds observation

/-- `IntegratedFHIRClient.create_condition`: same gate, Condition
shape (its coding keeps the raw display, possibly `None`). -/
def create_condition (tx : MakeRequest) (ds : FHIRClient.DataServer)
    (validate_codes : Bool) (patient_id code system clinical_status : String)
    (validate : Option Bool) : Except Exn JSON × List JSON :=
  let should_validate := validate.getD validate_codes
  if should_validate && !(JSON.truthy (TerminologyService.is_valid_code tx code system))
  then (Except.error (Exn.validationError code system), [])
  else
    let display := TerminologyService.get_display_name tx (JSON.str system) (JSON.str code)
    let system_url := TerminologyService.get_code_system_url system
    let condition : JSON := JSON.obj
      [("resourceType", JSON.str "Condition"),
       ("clinicalStatus", JSON.obj [("coding", JSON.arr [JSON.obj
          [("system", JSON.str "http://terminology.hl7.org/CodeSystem/condition-clinical"),
           ("code", JSON.str clinical_status)]])]),
       ("code", JSON.obj
         [("coding", JSON.arr [JSON.obj
            [("system", JSON.str system_url),
             ("code", JSON.str code),
             ("display", display)]]),
          ("text", if JSON.truthy display then display else JSON.str code)]),
       ("subject", JSON.obj [("reference", JSON.str ("Patient/" ++ patient_id))])]
    FHIRClient.create_resource ds condition

/-- The element step of `get_value_set_options`: build
`{"value": c["code"], "label": c.get("display", c["code"])}` for each
member, raising KeyError when `code` is missing (Python evaluates the
`c["code"]` default argument eagerly) and TypeError when the member is
not a dict. -/
def optionsOf : List JSON → Except Exn (List JSON)
  | [] => .ok []
  | JSON.obj cf :: rest =>
    match JSON.lookupJ cf "code" with
    | some cv =>
      (optionsOf rest).map
        (fun tail => JSON.obj [("value", cv), ("label", (JSON.lookupJ cf "display").getD cv)] :: tail)
    | none => .error (.keyError "code")
  | _ :: _ => .error (.typeError "indexing a non-dict member")

/-- `IntegratedFHIRClient.get_value_set_options`: expansion with **no**
exception guard — a failed expansion propagates to the caller.  On
success the `expansion.contains` members are turned into value/label
pairs; an absent expansion or member list yields the empty list. -/
def get_value_set_options (tx : MakeRequest) (value_set_url : String) :
    Except Exn (List JSON) :=
  match TerminologyService.expand_value_set tx (some value_set_url) none none 0 100 with
  | .error e => .error e
  | .ok body =>
    match body with
    | JSON.obj fields =>
      match JSON.lookupJ fields "expansion" with
      | some (JSON.obj ef) =>
        (match JSON.lookupJ ef "contains" with
         | some (JSON.arr cs) => optionsOf cs
         | some (JSON.obj cf) =>
           if cf.isEmpty then .ok [] else .error (.typeError "string indices")
         | some (JSON.str s) =>
           if s = "" then .ok [] else .error (.typeError "string indices")
         | some _ => .error (.typeError "not iterable")
         | none => .ok [])
      | some _ => .error (.attributeError "get on a non-dict expansion")
      | none => .ok []
    | _ => .error (.attributeError "get on a non-dict body")

namespace Transport

/-- Modelled from the spec: the Transport retry policy of §4.1.  The
loop itself lives in the pinned third-party HTTP stack, not in this
repository; `FHIRClient.__init__` (src/client.py) only configures it
with `total=3`, `status_forcelist=[429, 500, 502, 503, 504]` and
backoff.  In that stack `total` counts *retries*: each response whose
status is in the force list consumes one retry, and when none remain
the failure is raised; any other status is returned at once. -/
def status_forcelist : List Nat := [429, 500, 502, 503, 504]

/-- The configured retry budget (`total=3` in src/client.py). -/
def retryTotal : Nat := 3

/-- Outcome of a retried request: the returned status together with the
number of attempts made, or exhaustion after that many attempts. -/
inductive RetryResult where
  | success : Nat → Nat → RetryResult
  | exhausted : Nat → RetryResult
deriving DecidableEq, Repr

/-- Modelled from the spec (§4.1) and the configured third-party retry
loop: `responses i` is the status of the i-th request; with `r` retries
remaining, a force-listed status consumes a retry (or exhausts), any
other status returns. -/
def retryLoop (responses : Nat → Nat) : Nat → Nat → RetryResult
  | 0, i =>
    if responses i ∈ status_forcelist then .exhausted (i + 1)
    else .success (responses i) (i + 1)
  | r + 1, i =>
    if responses i ∈ status_forcelist then retryLoop responses r (i + 1)
    else .success (responses i) (i + 1)

/-- One request through the session `FHIRClient.__init__` builds:
the retry loop at the configured budget. -/
def sessionRequest (responses : Nat → Nat) : RetryResult :=
  retryLoop responses retryTotal 0

end Transport

/-- A transport whose every call raises FHIRClientError (an unreachable
terminology server). -/
def txDown : MakeRequest := fun _ _ _ =>
  Except.error (Exn.fhirClientError "terminology server unreachable")

/-- A data server that is never supposed to be reached. -/
def dsZero : FHIRClient.DataServer := fun _ => Except.error "no write expected"

namespace TerminologyService

/-- The parameter list of a response body as the scans iterate it: the
list value of `parameter` when present, else nothing to iterate. -/
def paramListOf : JSON → List JSON
  | JSON.obj fields =>
    match JSON.lookupJ fields "parameter" with
    | some (JSON.arr ps) => ps
    | _ => []
  | _ => []

/-- A parameter dict named `result`. -/
def isResultParam : JSON → Bool
  | JSON.obj f => JSON.optIsStr (JSON.lookupJ f "name") "result"
  | _ => false

/-- The `valueBoolean` entry of a parameter, when it is a dict. -/
def vbOf : JSON → Option JSON
  | JSON.obj f => JSON.lookupJ f "valueBoolean"
  | _ => none

end TerminologyService

mutual

/-- Nesting depth of a value (leaves have depth 1). -/
def jdepth : JSON → Nat
  | .null => 1
  | .bool _ => 1
  | .num _ => 1
  | .str _ => 1
  | .arr xs => 1 + listDepth xs
  | .obj fields => 1 + fieldsDepth fields

/-- Depth of the deepest element of a list (0 when empty). -/
def listDepth : List JSON → Nat
  | [] => 0
  | x :: xs => Nat.max (jdepth x) (listDepth xs)

/-- Depth of the deepest value of a field list (0 when empty). -/
def fieldsDepth : List (String × JSON) → Nat
  | [] => 0
  | kv :: rest => Nat.max (jdepth kv.2) (fieldsDepth rest)

end

/-- Short-circuiting map over the values of a field list, keeping keys
and order (the `for key, value in obj.items(): obj[key] = f(value)`
loop, where a raised exception aborts). -/
def exceptMapPairs (f : JSON → Except Exn JSON) :
    List (String × JSON) → Except Exn (List (String × JSON))
  | [] => .ok []
  | (k, v) :: rest =>
    match f v with
    | .error e => .error e
    | .ok v1 =>
      match exceptMapPairs f rest with
      | .error e => .error e
      | .ok r1 => .ok ((k, v1) :: r1)

/-- Short-circuiting map over a list (`[f(item) for item in obj]`,
where a raised exception aborts). -/
def exceptMapList (f : JSON → Except Exn JSON) :
    List JSON → Except Exn (List JSON)
  | [] => .ok []
  | x :: xs =>
    match f x with
    | .error e => .error e
    | .ok y =>
      match exceptMapList f xs with
      | .error e => .error e
      | .ok ys => .ok (y :: ys)

/-- The per-coding body of `enrich_coding_list` in
`IntegratedFHIRClient._enrich_codings`: when the coding has `system`
and `code` entries and a falsy `display`, look the display up (the
oracle `disp` is the behaviour of `get_display_name` on the raw field
values) and set it only when truthy.  Membership tests on non-iterable
values raise TypeError, and `.get` on a non-dict raises
AttributeError, exactly as in Python. -/
def enrich_one (disp : JSON → JSON → JSON) (coding : JSON) : Except Exn JSON :=
  match TerminologyService.pyIn "system" coding with
  | .error e => .error e
  | .ok false => .ok coding
  | .ok true =>
    match TerminologyService.pyIn "code" coding with
    | .error e => .error e
    | .ok false => .ok coding
    | .ok true =>
      match coding with
      | JSON.obj f =>
        if JSON.truthy ((JSON.lookupJ f "display").getD JSON.null) then .ok coding
        else
          let display := disp ((JSON.lookupJ f "system").getD JSON.null)
            ((JSON.lookupJ f "code").getD JSON.null)
          if JSON.truthy display then .ok (JSON.obj (JSON.setKey f "display" display))
          else .ok coding
      | _ => .error (.attributeError "get on a non-dict coding")

/-- `enrich_coding_list`: the per-coding step over the array, in
order; a raised exception aborts (loops in `_enrich_codings` have no
exception guard). -/
def enrich_coding_list (disp : JSON → JSON → JSON) (cs : List JSON) :
    Except Exn (List JSON) :=
  exceptMapList (enrich_one disp) cs

/-- The dict-level head of `recursive_enrich`: when the dict holds a
list-valued `coding` entry, enrich the codings in place, then set
`text` to the first coding display (default the empty string) when
`text` is falsy and the array nonempty. -/
def codingStep (disp : JSON → JSON → JSON) (fields : List (String × JSON)) :
    Except Exn (List (String × JSON)) :=
  match JSON.lookupJ fields "coding" with
  | some (JSON.arr cs) =>
    (match enrich_coding_list disp cs with
     | .error e => .error e
     | .ok cs1 =>
       let fields1 := JSON.setKey fields "coding" (JSON.arr cs1)
       if !(JSON.truthy ((JSON.lookupJ fields1 "text").getD JSON.null)) && !cs1.isEmpty then
         match cs1 with
         | [] => .ok fields1
         | c0 :: _ =>
           match c0 with
           | JSON.obj f0 =>
             .ok (JSON.setKey fields1 "text" ((JSON.lookupJ f0 "display").getD (JSON.str "")))
           | _ => .error (.attributeError "get on a non-dict coding")
       else .ok fields1)
  | _ => .ok fields

/-- `recursive_enrich`, fuelled: dicts run the coding/text step and
then recurse into every value of the mutated dict; lists map the
recursion; leaves are returned unchanged.  The source recursion is
unbounded (and genuinely diverges when the display oracle returns
nested records); the fuel counts nesting levels, and the wrapper
`enrich_codings` supplies the record depth, which the sufficiency
lemmas show never exhausts for leaf-valued displays. -/
def enrichFuel (disp : JSON → JSON → JSON) : Nat → JSON → Except Exn JSON
  | 0, _ => .error (.other "recursion depth exceeded")
  | fuel + 1, JSON.obj fields =>
    (match codingStep disp fields with
     | .error e => .error e
     | .ok fields1 =>
       match exceptMapPairs (enrichFuel disp fuel) fields1 with
       | .error e => .error e
       | .ok fields2 => .ok (JSON.obj fields2))
  | fuel + 1, JSON.arr xs =>
    (match exceptMapList (enrichFuel disp fuel) xs with
     | .error e => .error e
     | .ok ys => .ok (JSON.arr ys))
  | _ + 1, j => .ok j

/-- `IntegratedFHIRClient._enrich_codings`, parameterised by the
display-lookup behaviour `disp` (the total `get_display_name` as a
function of the raw `system` and `code` field values). -/
def enrich_codings (disp : JSON → JSON → JSON) (resource : JSON) : Except Exn JSON :=
  enrichFuel disp (jdepth resource) resource

/-- A coding as the spec data model has it: a dict all of whose values
are leaves (`{system, code, display}` strings). -/
def flatCoding : JSON → Bool
  | JSON.obj f => f.all (fun kv => JSON.isLeaf kv.2)
  | _ => false

mutual

/-- A record as the spec data model has it: every list-valued `coding`
entry holds flat coding dicts (the shape of a coded element in the
data-model section of the spec). -/
def recordWF : JSON → Bool
  | .null => true
  | .bool _ => true
  | .num _ => true
  | .str _ => true
  | .arr xs => recordWFList xs
  | .obj fields =>
    (match JSON.lookupJ fields "coding" with
     | some (JSON.arr cs) => cs.all flatCoding
     | _ => true) && recordWFFields fields

/-- `recordWF` over the elements of a list. -/
def recordWFList : List JSON → Bool
  | [] => true
  | x :: xs => recordWF x && recordWFList xs

/-- `recordWF` over the values of a field list. -/
def recordWFFields : List (String × JSON) → Bool
  | [] => true
  | kv :: rest => recordWF kv.2 && recordWFFields rest

end

mutual

/-- All coding arrays of a record, in traversal order (the reachable
coded elements of the claims). -/
def codingBags : JSON → List (List JSON)
  | .null => []
  | .bool _ => []
  | .num _ => []
  | .str _ => []
  | .arr xs => codingBagsList xs
  | .obj fields =>
    (match JSON.lookupJ fields "coding" with
     | some (JSON.arr cs) => [cs]
     | _ => []) ++ codingBagsFields fields

/-- `codingBags` over the elements of a list. -/
def codingBagsList : List JSON → List (List JSON)
  | [] => []
  | x :: xs => codingBags x ++ codingBagsList xs

/-- `codingBags` over the values of a field list. -/
def codingBagsFields : List (String × JSON) → List (List JSON)
  | [] => []
  | kv :: rest => codingBags kv.2 ++ codingBagsFields rest

end

/-- What C3 asserts of one coding `c` and its enriched counterpart
`c1`: a coding with a truthy display is unchanged; one without both
`system` and `code` entries is unchanged; one whose display lookup
comes back falsy is unchanged; and in every case the result either
carries a `display` entry or is identical to the original. -/
def codingClaim (disp : JSON → JSON → JSON) (c c1 : JSON) : Prop :=
  (∀ f, c = JSON.obj f → JSON.truthy ((JSON.lookupJ f "display").getD JSON.null) = true →
    c1 = c)
  ∧ (∀ f, c = JSON.obj f →
      (JSON.hasKey f "system" = false ∨ JSON.hasKey f "code" = false) → c1 = c)
  ∧ (∀ f, c = JSON.obj f → JSON.hasKey f "system" = true → JSON.hasKey f "code" = true →
      JSON.truthy ((JSON.lookupJ f "display").getD JSON.null) = false →
      JSON.truthy (disp ((JSON.lookupJ f "system").getD JSON.null)
        ((JSON.lookupJ f "code").getD JSON.null)) = false →
      c1 = c)
  ∧ ((∃ f, c1 = JSON.obj f ∧ JSON.hasKey f "display" = true) ∨ c1 = c)

/-- Constructor tag of a value (leaf / list / dict), used to state that
enrichment never changes the kind of a node. -/
def jtag : JSON → Nat
  | .arr _ => 1
  | .obj _ => 2
  | _ => 0

/-- The full induction package for enrichment: the run succeeds with
`r`, the result is again a well-formed record, no deeper than the
input, of the same kind and truthiness, its reachable coding arrays
relate to the input ones by `codingClaim` positionally, and the result
is a fixed point of another enrichment pass at the same fuel. -/
@[reducible] def EnrichOK (disp : JSON → JSON → JSON) (fuel : Nat) (j r : JSON) : Prop :=
  enrichFuel disp fuel j = .ok r
  ∧ recordWF r = true
  ∧ jdepth r ≤ jdepth j
  ∧ JSON.truthy r = JSON.truthy j
  ∧ jtag r = jtag j
  ∧ List.Forall₂ (List.Forall₂ (codingClaim disp)) (codingBags j) (codingBags r)
  ∧ enrichFuel disp fuel r = .ok r

/-- A display oracle for concrete runs: every lookup succeeds with the
LOINC body-weight label. -/
def dispW : JSON → JSON → JSON := fun _ _ => JSON.str "Body weight"

/-- A concrete observation lacking its display name. -/
def recW : JSON := JSON.obj
  [("resourceType", JSON.str "Observation"),
   ("code", JSON.obj
     [("coding", JSON.arr [JSON.obj
        [("system", JSON.str "http://loinc.org"),
         ("code", JSON.str "29463-7")]])])]

/-- `recW` after enrichment under `dispW`: the display is filled in and
the coded element text is set. -/
def recWE : JSON := JSON.obj
  [("resourceType", JSON.str "Observation"),
   ("code", JSON.obj
     [("coding", JSON.arr [JSON.obj
        [("system", JSON.str "http://loinc.org"),
         ("code", JSON.str "29463-7"),
         ("display", JSON.str "Body weight")]]),
      ("text", JSON.str "Body weight")])]

/-- A dict value. -/
def isObjB : JSON → Bool
  | JSON.obj _ => true
  | _ => false

/-- The outcome scan of `find_related_conditions` over the `parameter`
list, inside its try: keep on the first parameter named `outcome`
whose `valueCode` is `subsumes` or `equivalent` (appending breaks
there); other outcome parameters are skipped; a non-dict element
raises, which the `except` turns into not keeping. -/
def outcomeKeep : List JSON → Bool
  | [] => false
  | JSON.obj f :: rest =>
    if JSON.optIsStr (JSON.lookupJ f "name") "outcome" then
      match JSON.lookupJ f "valueCode" with
      | some v =>
        if JSON.isStr v "subsumes" || JSON.isStr v "equivalent" then true
        else outcomeKeep rest
      | none => outcomeKeep rest
    else outcomeKeep rest
  | _ :: _ => false

/-- Body-level outcome scan: every ill-shaped response ends as not
keeping (exceptions inside the try are swallowed). -/
def respKeep : JSON → Bool
  | JSON.obj f =>
    match JSON.lookupJ f "parameter" with
    | some (JSON.arr ps) => outcomeKeep ps
    | _ => false
  | _ => false

/-- One coding of a candidate condition in `find_related_conditions`:
outside the try, `coding.get` on a non-dict raises; a coding of the
searched system is kept when its subsumption check succeeds with a
kept outcome, while a missing `code` key (KeyError) or a failing
subsumption call is swallowed by the try. -/
def codingKeep (tx : MakeRequest) (parent_code system : String) :
    JSON → Except Exn Bool
  | JSON.obj f =>
    if JSON.optIsStr (JSON.lookupJ f "system")
        (TerminologyService.get_code_system_url system) then
      match JSON.lookupJ f "code" with
      | none => .ok false
      | some cb =>
        match TerminologyService.check_subsumption tx parent_code cb system with
        | .error _ => .ok false
        | .ok resp => .ok (respKeep resp)
    else .ok false
  | _ => .error (.attributeError "get on a non-dict coding")

/-- How many times the loop appends a candidate: one append per kept
coding (the inner loop has no break after appending). -/
def codingsKeepCount (tx : MakeRequest) (parent_code system : String) :
    List JSON → Except Exn Nat
  | [] => .ok 0
  | c :: rest =>
    match codingKeep tx parent_code system c with
    | .error e => .error e
    | .ok b =>
      match codingsKeepCount tx parent_code system rest with
      | .error e => .error e
      | .ok n => .ok (if b then n + 1 else n)

/-- The append count for one candidate condition:
`condition.get("code", {}).get("coding", [])` iterated. -/
def condKeepCount (tx : MakeRequest) (parent_code system : String)
    (condition : JSON) : Except Exn Nat :=
  match condition with
  | JSON.obj cf =>
    match JSON.lookupJ cf "code" with
    | none => .ok 0
    | some (JSON.obj codef) =>
      (match JSON.lookupJ codef "coding" with
       | none => .ok 0
       | some (JSON.arr cs) => codingsKeepCount tx parent_code system cs
       | some (JSON.obj g) =>
         if g.isEmpty then .ok 0 else .error (.attributeError "get on a string")
       | some (JSON.str s) =>
         if s = "" then .ok 0 else .error (.attributeError "get on a string")
       | some _ => .error (.typeError "not iterable"))
    | some _ => .error (.attributeError "get on a non-dict code")
  | _ => .error (.attributeError "get on a non-dict condition")

/-- The filtering loop of `find_related_conditions` over the
candidate conditions, in order: each candidate is appended once per
kept coding. -/
def relatedLoop (tx : MakeRequest) (parent_code system : String) :
    List JSON → Except Exn (List JSON)
  | [] => .ok []
  | c :: rest =>
    match condKeepCount tx parent_code system c with
    | .error e => .error e
    | .ok n =>
      match relatedLoop tx parent_code system rest with
      | .error e => .error e
      | .ok tail => .ok (List.replicate n c ++ tail)

/-- `[e["resource"] for e in bundle.get("entry", [])]`: entry
extraction from the search bundle, with Python indexing errors. -/
def extractResources : JSON → Except Exn (List JSON)
  | JSON.obj fields =>
    match JSON.lookupJ fields "entry" with
    | some (JSON.arr es) =>
      es.foldr (fun e acc =>
        match e with
        | JSON.obj f =>
          (match JSON.lookupJ f "resource" with
           | some r => acc.map (fun tail => r :: tail)
           | none => .error (.keyError "resource"))
        | _ => .error (.typeError "indexing a non-dict entry")) (.ok [])
    | some (JSON.obj g) =>
      if g.isEmpty then .ok [] else .error (.typeError "string indices")
    | some (JSON.str s) =>
      if s = "" then .ok [] else .error (.typeError "string indices")
    | some _ => .error (.typeError "not iterable")
    | none => .ok []
  | _ => .error (.attributeError "get on a non-dict bundle")

/-- `IntegratedFHIRClient.find_related_conditions`: search the data
server for the patient conditions (`searchRes` is that call), extract
the resources, keep each candidate once per coding of the searched
system whose subsumption outcome is kept, then enrich the kept
candidates when the display flag is on. -/
def find_related_conditions (tx : MakeRequest) (searchRes : Except Exn JSON)
    (disp : JSON → JSON → JSON) (enrich_display : Bool)
    (parent_code system : String) : Except Exn (List JSON) :=
  match searchRes with
  | .error e => .error e
  | .ok bundle =>
    match extractResources bundle with
    | .error e => .error e
    | .ok conds =>
      match relatedLoop tx parent_code system conds with
      | .error e => .error e
      | .ok related =>
        if enrich_display then exceptMapList (enrich_codings disp) related
        else .ok related

/-- What C5 asserts of one coding: it names the searched system and its
subsumption check against the parent code comes back with a kept
outcome. -/
def subsumesKeep (tx : MakeRequest) (parent_code system : String)
    (coding : JSON) : Prop :=
  ∃ f cb resp, coding = JSON.obj f
    ∧ JSON.optIsStr (JSON.lookupJ f "system")
        (TerminologyService.get_code_system_url system) = true
    ∧ JSON.lookupJ f "code" = some cb
    ∧ TerminologyService.check_subsumption tx parent_code cb system = Except.ok resp
    ∧ respKeep resp = true

/-- What C5 asserts of one candidate: some coding of the searched
system yields a kept subsumption outcome. -/
def condKeepPred (tx : MakeRequest) (parent_code system : String)
    (condition : JSON) : Prop :=
  ∃ cf codef cs, condition = JSON.obj cf
    ∧ JSON.lookupJ cf "code" = some (JSON.obj codef)
    ∧ JSON.lookupJ codef "coding" = some (JSON.arr cs)
    ∧ ∃ coding ∈ cs, subsumesKeep tx parent_code system coding

/-- Shape of a candidate the filtering loop traverses without raising:
a dict whose `code`, when present, is a dict whose `coding`, when
present, is a list of dicts. -/
def condShapeWF (condition : JSON) : Bool :=
  match condition with
  | JSON.obj cf =>
    match JSON.lookupJ cf "code" with
    | none => true
    | some (JSON.obj codef) =>
      (match JSON.lookupJ codef "coding" with
       | none => true
       | some (JSON.arr cs) => cs.all isObjB
       | some _ => false)
    | some _ => false
  | _ => false

/-- The inner `part` scan of `translate_condition_codes`: the first
part named `concept` yields its `valueCoding` (default the empty
dict); a non-dict part raises, aborting the whole parameter scan
(`none`); no concept is a clean pass (`some none`). -/
def partsConcept : List JSON → Option (Option JSON)
  | [] => some none
  | JSON.obj f :: rest =>
    if JSON.optIsStr (JSON.lookupJ f "name") "concept" then
      some (some ((JSON.lookupJ f "valueCoding").getD (JSON.obj [])))
    else partsConcept rest
  | _ :: _ => none

/-- `param.get("part", [])` of a `match` parameter, iterated: a
non-list value either iterates to raising items (abort) or is empty. -/
def paramPartsScan (f : List (String × JSON)) : Option (Option JSON) :=
  match JSON.lookupJ f "part" with
  | none => some none
  | some (JSON.arr ps) => partsConcept ps
  | some (JSON.obj g) => if g.isEmpty then some none else none
  | some (JSON.str s) => if s = "" then some none else none
  | some _ => none

/-- The codings appended for one translation response: one per `match`
parameter with a concept part, in order, stopping (but keeping the
prefix) at the first element that raises inside the try. -/
def respConcepts : List JSON → List JSON
  | [] => []
  | JSON.obj f :: rest =>
    if JSON.optIsStr (JSON.lookupJ f "name") "match" then
      match paramPartsScan f with
      | some (some v) => v :: respConcepts rest
      | some none => respConcepts rest
      | none => []
    else respConcepts rest
  | _ :: _ => []

/-- Body-level concept extraction (ill-shaped bodies append nothing;
the exception is swallowed by the try). -/
def bodyConcepts : JSON → List JSON
  | JSON.obj f =>
    match JSON.lookupJ f "parameter" with
    | some (JSON.arr ps) => respConcepts ps
    | _ => []
  | _ => []

/-- The coding loop of `translate_condition_codes`: Python iterates
the very list it appends to, so appended translations are themselves
later translated; the index walks the growing list.  The source loop
is unbounded (a translation oracle that always returns a match makes
it diverge); `fuel` bounds the number of iterations and exhaustion is
reported as an error. -/
def translateLoop (tx : MakeRequest) (target_system : String) :
    Nat → Nat → List JSON → Except Exn (List JSON)
  | 0, _, _ => .error (.other "loop bound exhausted")
  | fuel + 1, i, cur =>
    if h : i < cur.length then
      match cur.get ⟨i, h⟩ with
      | JSON.obj f =>
        (match TerminologyService.translate_code tx
            ((JSON.lookupJ f "code").getD (JSON.str ""))
            ((JSON.lookupJ f "system").getD (JSON.str ""))
            target_system none with
        | .error _ => translateLoop tx target_system fuel (i + 1) cur
        | .ok resp =>
          translateLoop tx target_system fuel (i + 1) (cur ++ bodyConcepts resp))
      | _ => .error (.attributeError "get on a non-dict coding")
    else .ok cur

/-- `IntegratedFHIRClient.translate_condition_codes`: walk
`condition["code"]["coding"]`, translating each coding and appending
the translated concepts to the same list; individual translation
failures are logged and skipped. -/
def translate_condition_codes (tx : MakeRequest) (target_system : String)
    (fuel : Nat) (condition : JSON) : Except Exn JSON :=
  match condition with
  | JSON.obj cf =>
    match JSON.lookupJ cf "code" with
    | none => .ok condition
    | some (JSON.obj codef) =>
      (match JSON.lookupJ codef "coding" with
       | none => .ok condition
       | some (JSON.arr cs) =>
         (match translateLoop tx target_system fuel 0 cs with
          | .error e => .error e
          | .ok final =>
            .ok (JSON.obj (JSON.setKey cf "code"
              (JSON.obj (JSON.setKey codef "coding" (JSON.arr final))))))
       | some (JSON.obj g) =>
         if g.isEmpty then .ok condition else .error (.attributeError "get on a string")
       | some (JSON.str s) =>
         if s = "" then .ok condition else .error (.attributeError "get on a string")
       | some _ => .error (.typeError "not iterable"))
    | some _ => .error (.attributeError "get on a non-dict code")
  | _ => .error (.attributeError "get on a non-dict condition")

/-- A terminology transport for concrete runs of the hierarchy
search: every subsumption check answers `subsumes`, other calls
fail. -/
def txSub : MakeRequest := fun _ endpoint _ =>
  if endpoint = "CodeSystem/$subsumes" then
    .ok (JSON.obj [("parameter", JSON.arr
      [JSON.obj [("name", JSON.str "outcome"),
                 ("valueCode", JSON.str "subsumes")]])])
  else .error (.fhirClientError "unexpected call")

/-- A concrete candidate condition carrying one SNOMED coding. -/
def condW : JSON := JSON.obj
  [("resourceType", JSON.str "Condition"),
   ("code", JSON.obj
     [("coding", JSON.arr [JSON.obj
        [("system", JSON.str "http://snomed.info/sct"),
         ("code", JSON.str "38341003")]])])]

/-- A concrete search bundle holding `condW`. -/
def bundleW : JSON := JSON.obj
  [("entry", JSON.arr [JSON.obj [("resource", condW)]])]

/-- C9: `get_code_system_url` is total (a plain function of the input
string); a known alias (after lowercasing, as the source does) maps to
its canonical URI from the fixed table, and any other input is returned
unchanged; in particular the alias loinc maps to the LOINC URI and an
unknown URI passes through identically. -/
theorem C9_get_code_system_url_total (s : String) :
    (∀ url, TerminologyService.CODE_SYSTEMS.lookup (pyLower s) = some url →
      TerminologyService.get_code_system_url s = url)
    ∧ (TerminologyService.CODE_SYSTEMS.lookup (pyLower s) = none →
      TerminologyService.get_code_system_url s = s)
    ∧ TerminologyService.get_code_system_url "loinc" = "http://loinc.org"
    ∧ TerminologyService.get_code_system_url "http://unknown.example/sys"
        = "http://unknown.example/sys" := by
  refine ⟨?_, ?_, by decide, by decide⟩
  · intro url h
    simp [TerminologyService.get_code_system_url, h]
  · intro h
    simp [TerminologyService.get_code_system_url, h]

/-- Witness for C9 at concrete inputs: the alias branch fires for
"loinc" and the pass-through branch for an unknown URI. -/
theorem C9_get_code_system_url_total_witness :
    TerminologyService.get_code_system_url "loinc" = "http://loinc.org"
    ∧ TerminologyService.get_code_system_url "http://unknown.example/sys"
        = "http://unknown.example/sys" :=
  ⟨(C9_get_code_system_url_total "loinc").1 "http://loinc.org" (by decide),
   (C9_get_code_system_url_total "http://unknown.example/sys").2.1 (by decide)⟩

/-- The scan returns `False` when no parameter is a dict named
`result` (the claimed no-result case). -/
theorem resultScan_no_result :
    ∀ ps : List JSON, (∀ p ∈ ps, TerminologyService.isResultParam p = false) →
      TerminologyService.resultScan ps = JSON.bool false
  | [], _ => rfl
  | JSON.obj f :: rest, h => by
    have h0 := h (JSON.obj f) (List.mem_cons_self _ _)
    simp only [TerminologyService.isResultParam] at h0
    simp only [TerminologyService.resultScan, h0, Bool.false_eq_true, if_false]
    exact resultScan_no_result rest (fun p hp => h p (List.mem_cons_of_mem _ hp))
  | JSON.null :: _, _ => rfl
  | JSON.bool _ :: _, _ => rfl
  | JSON.num _ :: _, _ => rfl
  | JSON.str _ :: _, _ => rfl
  | JSON.arr _ :: _, _ => rfl

/-- The scan returns `False` when every `result` parameter lacks a
`valueBoolean` entry. -/
theorem resultScan_no_bool :
    ∀ ps : List JSON,
      (∀ p ∈ ps, TerminologyService.isResultParam p = true → TerminologyService.vbOf p = none) →
      TerminologyService.resultScan ps = JSON.bool false
  | [], _ => rfl
  | JSON.obj f :: rest, h => by
    simp only [TerminologyService.resultScan]
    by_cases hname : JSON.optIsStr (JSON.lookupJ f "name") "result" = true
    · have hvb := h (JSON.obj f) (List.mem_cons_self _ _)
        (by simp [TerminologyService.isResultParam, hname])
      simp only [TerminologyService.vbOf] at hvb
      simp [hname, hvb]
    · simp only [hname, if_false]
      exact resultScan_no_bool rest (fun p hp => h p (List.mem_cons_of_mem _ hp))
  | JSON.null :: _, _ => rfl
  | JSON.bool _ :: _, _ => rfl
  | JSON.num _ :: _, _ => rfl
  | JSON.str _ :: _, _ => rfl
  | JSON.arr _ :: _, _ => rfl

/-- When the scan returns `True` there really is a parameter dict named
`result` whose `valueBoolean` is the boolean true. -/
theorem resultScan_true :
    ∀ ps : List JSON, TerminologyService.resultScan ps = JSON.bool true →
      ∃ p ∈ ps, TerminologyService.isResultParam p = true
        ∧ TerminologyService.vbOf p = some (JSON.bool true)
  | [], h => by simp [TerminologyService.resultScan] at h
  | JSON.obj f :: rest, h => by
    simp only [TerminologyService.resultScan] at h
    by_cases hname : JSON.optIsStr (JSON.lookupJ f "name") "result" = true
    · refine ⟨JSON.obj f, List.mem_cons_self _ _, ?_, ?_⟩
      · simp [TerminologyService.isResultParam, hname]
      · simp only [hname, if_true] at h
        cases hvb : JSON.lookupJ f "valueBoolean" with
        | none => rw [hvb] at h; simp at h
        | some v => rw [hvb] at h; simp at h; simp [TerminologyService.vbOf, hvb, h]
    · simp only [hname, if_false] at h
      obtain ⟨p, hp, h1, h2⟩ := resultScan_true rest h
      exact ⟨p, List.mem_cons_of_mem _ hp, h1, h2⟩
  | JSON.null :: _, h => by simp [TerminologyService.resultScan] at h
  | JSON.bool _ :: _, h => by simp [TerminologyService.resultScan] at h
  | JSON.num _ :: _, h => by simp [TerminologyService.resultScan] at h
  | JSON.str _ :: _, h => by simp [TerminologyService.resultScan] at h
  | JSON.arr _ :: _, h => by simp [TerminologyService.resultScan] at h

/-- Any body that is not a dict carrying a list-valued `parameter`
entry comes out of the body-level scan as `False`. -/
theorem is_valid_result_default (body : JSON)
    (h : TerminologyService.paramListOf body = []) :
    TerminologyService.is_valid_result body = TerminologyService.resultScan [] := by
  cases body with
  | obj fields =>
    simp only [TerminologyService.paramListOf] at h
    simp only [TerminologyService.is_valid_result]
    cases hp : JSON.lookupJ fields "parameter" with
    | none => rfl
    | some v => cases v <;> simp_all [TerminologyService.resultScan]
  | null => rfl
  | bool b => rfl
  | num s => rfl
  | str s => rfl
  | arr xs => rfl

/-- The body-level scan agrees with the parameter-list scan. -/
theorem is_valid_result_eq_scan (body : JSON) :
    TerminologyService.is_valid_result body
      = TerminologyService.resultScan (TerminologyService.paramListOf body) := by
  cases body with
  | obj fields =>
    simp only [TerminologyService.is_valid_result, TerminologyService.paramListOf]
    cases hp : JSON.lookupJ fields "parameter" with
    | none => rfl
    | some v => cases v <;> rfl
  | null => rfl
  | bool b => rfl
  | num s => rfl
  | str s => rfl
  | arr xs => rfl

/-- C2: `is_valid_code` fails closed: it is a total function (it
returns a value, never an exception); any exception of the underlying
`validate_code` call yields `False`; a response with no parameter dict
named `result` yields `False`; a `result` parameter lacking a
`valueBoolean` entry yields `False`; and the call returns `True` only
when the response holds a parameter named `result` whose `valueBoolean`
is the boolean true. -/
theorem C2_is_valid_code_fail_closed (tx : MakeRequest) (code system : String) :
    (∀ e, TerminologyService.validate_code tx code system none none = Except.error e →
      TerminologyService.is_valid_code tx code system = JSON.bool false)
    ∧ (∀ body, TerminologyService.validate_code tx code system none none = Except.ok body →
        ((∀ p ∈ TerminologyService.paramListOf body, TerminologyService.isResultParam p = false) →
          TerminologyService.is_valid_code tx code system = JSON.bool false)
        ∧ ((∀ p ∈ TerminologyService.paramListOf body,
              TerminologyService.isResultParam p = true → TerminologyService.vbOf p = none) →
          TerminologyService.is_valid_code tx code system = JSON.bool false))
    ∧ (TerminologyService.is_valid_code tx code system = JSON.bool true →
        ∃ body, TerminologyService.validate_code tx code system none none = Except.ok body
          ∧ ∃ p ∈ TerminologyService.paramListOf body,
              TerminologyService.isResultParam p = true
              ∧ TerminologyService.vbOf p = some (JSON.bool true)) := by
  refine ⟨?_, ?_, ?_⟩
  · intro e he
    simp [TerminologyService.is_valid_code, he]
  · intro body hb
    constructor
    · intro hnone
      simp only [TerminologyService.is_valid_code, hb]
      rw [is_valid_result_eq_scan body]
      exact resultScan_no_result _ hnone
    · intro hnb
      simp only [TerminologyService.is_valid_code, hb]
      rw [is_valid_result_eq_scan body]
      exact resultScan_no_bool _ hnb
  · intro htrue
    simp only [TerminologyService.is_valid_code] at htrue
    cases hv : TerminologyService.validate_code tx code system none none with
    | error e => simp [hv] at htrue
    | ok body =>
      simp only [hv] at htrue
      rw [is_valid_result_eq_scan body] at htrue
      exact ⟨body, rfl, resultScan_true _ htrue⟩

/-- Witness for C2: a dead transport makes `is_valid_code` come out
`False` through the exception clause. -/
theorem C2_is_valid_code_fail_closed_witness :
    TerminologyService.is_valid_code txDown "29463-7" "loinc" = JSON.bool false :=
  (C2_is_valid_code_fail_closed txDown "29463-7" "loinc").1
    (Exn.fhirClientError "terminology server unreachable") rfl

/-- C1: with validation enabled (an explicit `validate=True`, or
`validate=None` under a client whose `validate_codes` flag is set), a
(code, system) pair that the terminology validation reports invalid
makes both `create_observation` and `create_condition` raise
ValidationError, and the write list is empty: no
`FHIRClient.create_resource` call is ever issued. -/
theorem C1_validate_before_write (tx : MakeRequest) (ds : FHIRClient.DataServer)
    (validate_codes : Bool)
    (patient_id code system value unit_ status clinical_status : String)
    (validate : Option Bool)
    (hv : validate.getD validate_codes = true)
    (hinvalid : TerminologyService.is_valid_code tx code system = JSON.bool false) :
    IntegratedFHIRClient.create_observation tx ds validate_codes
        patient_id code system value unit_ status validate
      = (Except.error (Exn.validationError code system), [])
    ∧ IntegratedFHIRClient.create_condition tx ds validate_codes
        patient_id code system clinical_status validate
      = (Except.error (Exn.validationError code system), []) := by
  constructor
  · simp [IntegratedFHIRClient.create_observation, hv, hinvalid, JSON.truthy]
  · simp [IntegratedFHIRClient.create_condition, hv, hinvalid, JSON.truthy]

/-- Witness for C1: a dead transport reports every code invalid, and
with the default flag set and `validate=None`, creation raises
ValidationError with no write issued. -/
theorem C1_validate_before_write_witness :
    IntegratedFHIRClient.create_observation txDown dsZero true
        "123" "29463-7" "loinc" "70.5" "kg" "final" none
      = (Except.error (Exn.validationError "29463-7" "loinc"), [])
    ∧ IntegratedFHIRClient.create_condition txDown dsZero true
        "123" "29463-7" "loinc" "active" none
      = (Except.error (Exn.validationError "29463-7" "loinc"), []) :=
  C1_validate_before_write txDown dsZero true "123" "29463-7" "loinc"
    "70.5" "kg" "final" "active" none rfl rfl

/-- C10: the repository FHIRClient defines no `_make_request` method,
so with this client behind TerminologyService every remote vocabulary
operation raises AttributeError (never FHIRClientError) for every
input; consequently `is_valid_code` is always `False`,
`get_display_name` is always `None`, and validated creation always
raises ValidationError. -/
theorem C10_no_make_request :
    ("_make_request" ∈ FHIRClient.methods → False)
    ∧ (∀ code system d v, ∃ msg,
        TerminologyService.validate_code repoMakeRequest code system d v
          = Except.error (Exn.attributeError msg))
    ∧ (∀ system code p, ∃ msg,
        TerminologyService.lookup_code repoMakeRequest system code p
          = Except.error (Exn.attributeError msg))
    ∧ (∀ u i f off cnt, ∃ msg,
        TerminologyService.expand_value_set repoMakeRequest u i f off cnt
          = Except.error (Exn.attributeError msg))
    ∧ (∀ code src tgt cm, ∃ msg,
        TerminologyService.translate_code repoMakeRequest code src tgt cm
          = Except.error (Exn.attributeError msg))
    ∧ (∀ a b system, ∃ msg,
        TerminologyService.check_subsumption repoMakeRequest a b system
          = Except.error (Exn.attributeError msg))
    ∧ (∀ code system,
        TerminologyService.is_valid_code repoMakeRequest code system = JSON.bool false)
    ∧ (∀ system code,
        TerminologyService.get_display_name repoMakeRequest system code = JSON.null)
    ∧ (∀ ds vc pid code system value unit_ status validate,
        (validate : Option Bool).getD vc = true →
        IntegratedFHIRClient.create_observation repoMakeRequest ds vc
            pid code system value unit_ status validate
          = (Except.error (Exn.validationError code system), []))
    ∧ (∀ ds vc pid code system cs validate,
        (validate : Option Bool).getD vc = true →
        IntegratedFHIRClient.create_condition repoMakeRequest ds vc
            pid code system cs validate
          = (Except.error (Exn.validationError code system), [])) := by
  refine ⟨by decide, fun _ _ _ _ => ⟨_, rfl⟩, ?_, fun _ _ _ _ _ => ⟨_, rfl⟩,
    ?_, fun _ _ _ => ⟨_, rfl⟩, fun _ _ => rfl, ?_, ?_, ?_⟩
  · intro system code p
    cases system <;> exact ⟨_, rfl⟩
  · intro code src tgt cm
    cases src <;> exact ⟨_, rfl⟩
  · intro system code
    cases system <;> rfl
  · intro ds vc pid code system value unit_ status validate hv
    exact (C1_validate_before_write repoMakeRequest ds vc pid code system
      value unit_ status "x" validate hv rfl).1
  · intro ds vc pid code system cs validate hv
    exact (C1_validate_before_write repoMakeRequest ds vc pid code system
      "v" "u" "s" cs validate hv rfl).2

/-- Witness for C10: the hypothesis-bearing clauses at concrete
inputs — validated creation with the broken client raises
ValidationError and issues no write. -/
theorem C10_no_make_request_witness :
    IntegratedFHIRClient.create_observation repoMakeRequest dsZero true
        "123" "29463-7" "loinc" "70.5" "kg" "final" none
      = (Except.error (Exn.validationError "29463-7" "loinc"), [])
    ∧ IntegratedFHIRClient.create_condition repoMakeRequest dsZero true
        "123" "I10" "icd10cm" "active" none
      = (Except.error (Exn.validationError "I10" "icd10cm"), []) :=
  ⟨C10_no_make_request.2.2.2.2.2.2.2.2.1 dsZero true "123" "29463-7" "loinc"
      "70.5" "kg" "final" none rfl,
   C10_no_make_request.2.2.2.2.2.2.2.2.2 dsZero true "123" "I10" "icd10cm"
      "active" none rfl⟩

/-- C8 counterexample: with a transport whose expand call fails, the
UI-option listing `get_value_set_options` does **not** receive an empty
list — the failure propagates to the caller as an exception. -/
theorem C8_counterexample :
    get_value_set_options txDown "http://hl7.org/fhir/ValueSet/administrative-gender"
      = Except.error (Exn.fhirClientError "terminology server unreachable")
    ∧ ∀ l : List JSON,
      get_value_set_options txDown "http://hl7.org/fhir/ValueSet/administrative-gender"
        ≠ Except.ok l := by
  refine ⟨rfl, fun l h => ?_⟩
  rw [show get_value_set_options txDown "http://hl7.org/fhir/ValueSet/administrative-gender"
      = Except.error (Exn.fhirClientError "terminology server unreachable") from rfl] at h
  simp at h

/-- C8 amended: `search_value_set` never raises (it is a total
function) and yields the empty list on every failure of the underlying
expand call; `get_value_set_options`, by contrast, propagates a failed
expansion unchanged, and yields the empty list only for a successful
expansion with no member list. -/
theorem C8_empty_on_failure (tx : MakeRequest) (url text : String) (maxr : Int) :
    (∀ e, TerminologyService.expand_value_set tx (some url) none (some text) 0 maxr
        = Except.error e →
      TerminologyService.search_value_set tx url text maxr = JSON.arr [])
    ∧ (∀ e, TerminologyService.expand_value_set tx (some url) none none 0 100
        = Except.error e →
      get_value_set_options tx url = Except.error e)
    ∧ (∀ fields, TerminologyService.expand_value_set tx (some url) none none 0 100
        = Except.ok (JSON.obj fields) →
      JSON.lookupJ fields "expansion" = none →
      get_value_set_options tx url = Except.ok []) := by
  refine ⟨?_, ?_, ?_⟩
  · intro e he
    simp [TerminologyService.search_value_set, he]
  · intro e he
    simp [get_value_set_options, he]
  · intro fields hb hexp
    simp [get_value_set_options, hb, hexp]

/-- Witness for C8 amended: the dead transport drives the failure
clauses concretely. -/
theorem C8_empty_on_failure_witness :
    TerminologyService.search_value_set txDown "http://vs.example" "male" 20 = JSON.arr []
    ∧ get_value_set_options txDown "http://vs.example"
      = Except.error (Exn.fhirClientError "terminology server unreachable") :=
  ⟨(C8_empty_on_failure txDown "http://vs.example" "male" 20).1
      (Exn.fhirClientError "terminology server unreachable") rfl,
   (C8_empty_on_failure txDown "http://vs.example" "male" 20).2.1
      (Exn.fhirClientError "terminology server unreachable") rfl⟩

/-- C4 counterexample: under the configured retry budget (`total=3`), a
request answered 500 on every attempt is exhausted after **4** total
attempts (the initial request plus three retries), not after 3 as the
claim states. -/
theorem C4_counterexample :
    Transport.sessionRequest (fun _ => 500) = Transport.RetryResult.exhausted 4
    ∧ Transport.sessionRequest (fun _ => 500) ≠ Transport.RetryResult.exhausted 3 := by
  exact ⟨by decide, by decide⟩

/-- C4 amended: a retryable request answered 503, 503, 200 succeeds
with the 200 result on exactly 3 attempts; a request answered 500 on
every attempt, with the retry budget of 3, surfaces the failure after
exactly 4 total attempts (initial plus 3 retries); and a response whose
status is outside {429, 500, 502, 503, 504} is returned at once — a
retry is only ever consumed by a force-listed status. -/
theorem C4_retry_policy (responses : Nat → Nat) :
    (responses 0 = 503 → responses 1 = 503 → responses 2 = 200 →
      Transport.sessionRequest responses = Transport.RetryResult.success 200 3)
    ∧ ((∀ i, responses i = 500) →
      Transport.sessionRequest responses = Transport.RetryResult.exhausted 4)
    ∧ (∀ r i, responses i ∉ Transport.status_forcelist →
      Transport.retryLoop responses r i
        = Transport.RetryResult.success (responses i) (i + 1)) := by
  refine ⟨?_, ?_, ?_⟩
  · intro h0 h1 h2
    simp [Transport.sessionRequest, Transport.retryTotal, Transport.retryLoop,
      Transport.status_forcelist, h0, h1, h2]
  · intro h
    simp [Transport.sessionRequest, Transport.retryTotal, Transport.retryLoop,
      Transport.status_forcelist, h]
  · intro r i hni
    cases r <;> simp [Transport.retryLoop, hni]

/-- Witness for C4 amended: the 503/503/200 schedule run concretely. -/
theorem C4_retry_policy_witness :
    Transport.sessionRequest (fun i => if i = 0 then 503 else if i = 1 then 503 else 200)
      = Transport.RetryResult.success 200 3 :=
  (C4_retry_policy (fun i => if i = 0 then 503 else if i = 1 then 503 else 200)).1
    rfl rfl rfl

/-- Setting a key makes it present with the new value. -/
theorem lookupJ_setKey_same : ∀ (f : List (String × JSON)) (k : String) (v : JSON),
    JSON.lookupJ (JSON.setKey f k v) k = some v
  | [], k, v => by simp [JSON.setKey, JSON.lookupJ]
  | (k0, w) :: rest, k, v => by
    by_cases h : k0 = k
    · simp [JSON.setKey, JSON.lookupJ, h]
    · simp only [JSON.setKey, JSON.lookupJ, h, if_false]
      exact lookupJ_setKey_same rest k v

/-- Setting a key leaves every other key unchanged. -/
theorem lookupJ_setKey_other : ∀ (f : List (String × JSON)) (k : String) (v : JSON)
    (k2 : String), k2 ≠ k →
    JSON.lookupJ (JSON.setKey f k v) k2 = JSON.lookupJ f k2
  | [], k, v, k2, h => by simp [JSON.setKey, JSON.lookupJ, Ne.symm h]
  | (k0, w) :: rest, k, v, k2, h => by
    by_cases h0 : k0 = k
    · subst h0
      simp [JSON.setKey, JSON.lookupJ, Ne.symm h]
    · simp only [JSON.setKey, JSON.lookupJ, h0, if_false]
      by_cases h2 : k0 = k2
      · simp [h2]
      · simp only [h2, if_false]
        exact lookupJ_setKey_other rest k v k2 h

/-- Writing back the value a key already holds leaves the dict
unchanged. -/
theorem setKey_self : ∀ (f : List (String × JSON)) (k : String) (v : JSON),
    JSON.lookupJ f k = some v → JSON.setKey f k v = f
  | [], k, v, h => by simp [JSON.lookupJ] at h
  | (k0, w) :: rest, k, v, h => by
    by_cases h0 : k0 = k
    · simp only [JSON.lookupJ, h0, if_true, Option.some.injEq] at h
      subst h
      simp [JSON.setKey, h0]
    · simp only [JSON.lookupJ, h0, if_false] at h
      simp only [JSON.setKey, h0, if_false]
      rw [setKey_self rest k v h]

/-- Setting a key preserves presence of any key. -/
theorem hasKey_setKey (f : List (String × JSON)) (k : String) (v : JSON) (k2 : String)
    (h : JSON.hasKey f k2 = true) : JSON.hasKey (JSON.setKey f k v) k2 = true := by
  by_cases hk : k2 = k
  · subst hk
    simp [JSON.hasKey, lookupJ_setKey_same]
  · simpa [JSON.hasKey, lookupJ_setKey_other f k v k2 hk] using h

/-- Every value is at least one level deep. -/
theorem jdepth_pos : ∀ j : JSON, 1 ≤ jdepth j
  | .null => le_refl _
  | .bool _ => le_refl _
  | .num _ => le_refl _
  | .str _ => le_refl _
  | .arr _ => by simp [jdepth]
  | .obj _ => by simp [jdepth]

/-- A value stored in a field list is bounded by the field depth. -/
theorem lookupJ_depth : ∀ (f : List (String × JSON)) (k : String) (v : JSON),
    JSON.lookupJ f k = some v → jdepth v ≤ fieldsDepth f
  | [], k, v, h => by simp [JSON.lookupJ] at h
  | (k0, w) :: rest, k, v, h => by
    simp only [fieldsDepth]
    by_cases h0 : k0 = k
    · simp only [JSON.lookupJ, h0, if_true, Option.some.injEq] at h
      subst h
      exact le_max_left _ _
    · simp only [JSON.lookupJ, h0, if_false] at h
      exact le_trans (lookupJ_depth rest k v h) (le_max_right _ _)

/-- Setting a key keeps the field depth below the max of the old depth
and the new value depth. -/
theorem fieldsDepth_setKey : ∀ (f : List (String × JSON)) (k : String) (v : JSON),
    fieldsDepth (JSON.setKey f k v) ≤ max (fieldsDepth f) (jdepth v)
  | [], k, v => by simp [JSON.setKey, fieldsDepth]
  | (k0, w) :: rest, k, v => by
    by_cases h0 : k0 = k
    · subst h0
      simp only [JSON.setKey, if_true, fieldsDepth]
      exact max_le (le_max_right _ _) (le_trans (le_max_right _ _) (le_max_left _ _))
    · simp only [JSON.setKey, h0, if_false, fieldsDepth]
      refine max_le (le_trans (le_max_left _ _) (le_max_left _ _))
        (le_trans (fieldsDepth_setKey rest k v) (max_le ?_ (le_max_right _ _)))
      exact le_trans (le_max_right _ _) (le_max_left _ _)

/-- A list element is bounded by the list depth. -/
theorem listDepth_mem : ∀ (xs : List JSON) (x : JSON), x ∈ xs → jdepth x ≤ listDepth xs
  | [], x, h => by cases h
  | y :: ys, x, h => by
    rcases List.mem_cons.mp h with h | h
    · subst h; simp [listDepth, le_max_left]
    · exact le_trans (listDepth_mem ys x h) (by simp [listDepth, le_max_right])

/-- A field value is bounded by the field depth. -/
theorem fieldsDepth_mem : ∀ (f : List (String × JSON)) (kv : String × JSON),
    kv ∈ f → jdepth kv.2 ≤ fieldsDepth f
  | [], kv, h => by cases h
  | kw :: rest, kv, h => by
    rcases List.mem_cons.mp h with h | h
    · subst h; simp [fieldsDepth, le_max_left]
    · exact le_trans (fieldsDepth_mem rest kv h) (by simp [fieldsDepth, le_max_right])

/-- Successful short-circuit maps over lists are pointwise successes. -/
theorem exceptMapList_ok (f : JSON → Except Exn JSON) :
    ∀ (xs ys : List JSON), exceptMapList f xs = .ok ys ↔
      List.Forall₂ (fun x y => f x = .ok y) xs ys := by
  intro xs
  induction xs with
  | nil =>
    intro ys
    constructor
    · intro h
      cases ys with
      | nil => exact List.Forall₂.nil
      | cons y ys => simp [exceptMapList] at h
    · intro h
      cases h
      rfl
  | cons x rest ih =>
    intro ys
    constructor
    · intro h
      simp only [exceptMapList] at h
      cases hx : f x with
      | error e => rw [hx] at h; simp at h
      | ok y =>
        rw [hx] at h
        cases hr : exceptMapList f rest with
        | error e => rw [hr] at h; simp at h
        | ok ys1 =>
          rw [hr] at h
          simp only [Except.ok.injEq] at h
          subst h
          exact List.Forall₂.cons hx ((ih ys1).mp hr)
    · intro h
      cases h with
      | cons hx hrest =>
        simp only [exceptMapList, hx]
        rw [(ih _).mpr hrest]

/-- Successful short-circuit maps over field lists keep keys and are
pointwise successes on values. -/
theorem exceptMapPairs_ok (f : JSON → Except Exn JSON) :
    ∀ (fs gs : List (String × JSON)), exceptMapPairs f fs = .ok gs ↔
      List.Forall₂ (fun kv kw => kv.1 = kw.1 ∧ f kv.2 = .ok kw.2) fs gs := by
  intro fs
  induction fs with
  | nil =>
    intro gs
    constructor
    · intro h
      cases gs with
      | nil => exact List.Forall₂.nil
      | cons g gs => simp [exceptMapPairs] at h
    · intro h
      cases h
      rfl
  | cons kv rest ih =>
    intro gs
    constructor
    · intro h
      obtain ⟨k, v⟩ := kv
      simp only [exceptMapPairs] at h
      cases hx : f v with
      | error e => rw [hx] at h; simp at h
      | ok v1 =>
        rw [hx] at h
        cases hr : exceptMapPairs f rest with
        | error e => rw [hr] at h; simp at h
        | ok gs1 =>
          rw [hr] at h
          simp only [Except.ok.injEq] at h
          subst h
          exact List.Forall₂.cons ⟨rfl, hx⟩ ((ih gs1).mp hr)
    · intro h
      cases h with
      | cons hx hrest =>
        obtain ⟨k, v⟩ := kv
        obtain ⟨hk, hv⟩ := hx
        simp only [exceptMapPairs, hv]
        rw [(ih _).mpr hrest]
        rename_i b l2
        obtain ⟨k2, v2⟩ := b
        simp at hk
        rw [hk]

/-- Mapping agrees on functions that agree on the elements. -/
theorem exceptMapList_congr (f g : JSON → Except Exn JSON) :
    ∀ xs : List JSON, (∀ x ∈ xs, f x = g x) →
      exceptMapList f xs = exceptMapList g xs
  | [], _ => rfl
  | x :: rest, h => by
    simp only [exceptMapList, h x (List.mem_cons_self _ _)]
    rw [exceptMapList_congr f g rest (fun y hy => h y (List.mem_cons_of_mem _ hy))]

/-- Mapping agrees on functions that agree on the values. -/
theorem exceptMapPairs_congr (f g : JSON → Except Exn JSON) :
    ∀ fs : List (String × JSON), (∀ kv ∈ fs, f kv.2 = g kv.2) →
      exceptMapPairs f fs = exceptMapPairs g fs
  | [], _ => rfl
  | kv :: rest, h => by
    simp only [exceptMapPairs, h kv (List.mem_cons_self _ _)]
    rw [exceptMapPairs_congr f g rest (fun kw hw => h kw (List.mem_cons_of_mem _ hw))]

/-- Lookup through a successful pairs map: a present key maps to the
image of its old value, an absent key stays absent. -/
theorem lookupJ_mapPairs (f : JSON → Except Exn JSON) :
    ∀ (fs gs : List (String × JSON)), exceptMapPairs f fs = .ok gs →
      ∀ k, (∀ v, JSON.lookupJ fs k = some v →
          ∃ v1, f v = .ok v1 ∧ JSON.lookupJ gs k = some v1)
        ∧ (JSON.lookupJ fs k = none → JSON.lookupJ gs k = none) := by
  intro fs gs h k
  induction ((exceptMapPairs_ok f fs gs).mp h) with
  | nil => exact ⟨fun v hv => by simp [JSON.lookupJ] at hv, fun _ => rfl⟩
  | cons hx hrest ih =>
    rename_i kv kw fs1 gs1
    obtain ⟨k1, v1⟩ := kv
    obtain ⟨k2, v2⟩ := kw
    obtain ⟨hk, hv⟩ := hx
    simp only at hk hv
    subst hk
    have ih2 := ih ((exceptMapPairs_ok f fs1 gs1).mpr hrest)
    constructor
    · intro v hlv
      by_cases hkk : k1 = k
      · simp only [JSON.lookupJ, hkk, if_true, Option.some.injEq] at hlv
        subst hlv
        exact ⟨v2, hv, by simp [JSON.lookupJ, hkk]⟩
      · simp only [JSON.lookupJ, hkk, if_false] at hlv ⊢
        exact ih2.1 v hlv
    · intro hlv
      by_cases hkk : k1 = k
      · simp [JSON.lookupJ, hkk] at hlv
      · simp only [JSON.lookupJ, hkk, if_false] at hlv ⊢
        exact ih2.2 hlv

/-- A found key/value pair is a member of the field list. -/
theorem lookupJ_mem : ∀ (f : List (String × JSON)) (k : String) (v : JSON),
    JSON.lookupJ f k = some v → (k, v) ∈ f
  | [], k, v, h => by simp [JSON.lookupJ] at h
  | (k0, w) :: rest, k, v, h => by
    by_cases h0 : k0 = k
    · subst h0
      simp only [JSON.lookupJ, if_true, Option.some.injEq] at h
      subst h
      exact List.mem_cons_self _ _
    · simp only [JSON.lookupJ, h0, if_false] at h
      exact List.mem_cons_of_mem _ (lookupJ_mem rest k v h)

/-- Leaves are well-formed records. -/
theorem leaf_recordWF (v : JSON) (h : JSON.isLeaf v = true) : recordWF v = true := by
  cases v <;> simp_all [JSON.isLeaf, recordWF]

/-- Leaves hold no coding arrays. -/
theorem leaf_bags (v : JSON) (h : JSON.isLeaf v = true) : codingBags v = [] := by
  cases v <;> simp_all [JSON.isLeaf, codingBags]

/-- Field lists all of whose values are leaves are well-formed. -/
theorem leafFields_recordWFFields : ∀ f : List (String × JSON),
    (∀ kv ∈ f, JSON.isLeaf kv.2 = true) → recordWFFields f = true
  | [], _ => rfl
  | kv :: rest, h => by
    simp only [recordWFFields, Bool.and_eq_true]
    exact ⟨leaf_recordWF _ (h kv (List.mem_cons_self _ _)),
      leafFields_recordWFFields rest (fun kw hw => h kw (List.mem_cons_of_mem _ hw))⟩

/-- Field lists all of whose values are leaves hold no coding arrays. -/
theorem leafFields_bags : ∀ f : List (String × JSON),
    (∀ kv ∈ f, JSON.isLeaf kv.2 = true) → codingBagsFields f = []
  | [], _ => rfl
  | kv :: rest, h => by
    simp only [codingBagsFields]
    rw [leaf_bags _ (h kv (List.mem_cons_self _ _)),
      leafFields_bags rest (fun kw hw => h kw (List.mem_cons_of_mem _ hw))]
    rfl

/-- A flat coding is a well-formed record. -/
theorem flat_recordWF (c : JSON) (hc : flatCoding c = true) : recordWF c = true := by
  cases c with
  | obj f =>
    simp only [flatCoding, List.all_eq_true] at hc
    simp only [recordWF, Bool.and_eq_true]
    constructor
    · cases hl : JSON.lookupJ f "coding" with
      | none => rfl
      | some v =>
        have hleaf : JSON.isLeaf v = true := hc _ (lookupJ_mem f "coding" v hl)
        cases v <;> simp_all [JSON.isLeaf]
    · exact leafFields_recordWFFields f hc
  | null => simp [flatCoding] at hc
  | bool b => simp [flatCoding] at hc
  | num s => simp [flatCoding] at hc
  | str s => simp [flatCoding] at hc
  | arr xs => simp [flatCoding] at hc

/-- A flat coding holds no coding arrays. -/
theorem flat_bags (c : JSON) (hc : flatCoding c = true) : codingBags c = [] := by
  cases c with
  | obj f =>
    simp only [flatCoding, List.all_eq_true] at hc
    simp only [codingBags]
    rw [leafFields_bags f hc]
    cases hl : JSON.lookupJ f "coding" with
    | none => rfl
    | some v =>
      have hleaf : JSON.isLeaf v = true := hc _ (lookupJ_mem f "coding" v hl)
      cases v <;> simp_all [JSON.isLeaf]
  | null => rfl
  | bool b => rfl
  | num s => rfl
  | str s => rfl
  | arr xs => simp [flatCoding] at hc

/-- A list of flat codings holds no coding arrays. -/
theorem flatList_bags : ∀ cs : List JSON,
    (∀ c ∈ cs, flatCoding c = true) → codingBagsList cs = []
  | [], _ => rfl
  | c :: rest, h => by
    simp only [codingBagsList]
    rw [flat_bags c (h c (List.mem_cons_self _ _)),
      flatList_bags rest (fun d hd => h d (List.mem_cons_of_mem _ hd))]
    rfl

/-- Setting a leaf value keeps a leaf-valued field list leaf-valued. -/
theorem setKey_leaves : ∀ (f : List (String × JSON)) (k : String) (v : JSON),
    (∀ kv ∈ f, JSON.isLeaf kv.2 = true) → JSON.isLeaf v = true →
    ∀ kv ∈ JSON.setKey f k v, JSON.isLeaf kv.2 = true
  | [], k, v, _, hv => by
    intro kv hkv
    simp only [JSON.setKey, List.mem_singleton] at hkv
    subst hkv
    exact hv
  | (k0, w) :: rest, k, v, h, hv => by
    intro kv hkv
    by_cases h0 : k0 = k
    · simp only [JSON.setKey, h0, if_true] at hkv
      rcases List.mem_cons.mp hkv with h1 | h1
      · subst h1; exact hv
      · exact h kv (List.mem_cons_of_mem _ h1)
    · simp only [JSON.setKey, h0, if_false] at hkv
      rcases List.mem_cons.mp hkv with h1 | h1
      · subst h1; exact h _ (List.mem_cons_self _ _)
      · exact setKey_leaves rest k v (fun kw hw => h kw (List.mem_cons_of_mem _ hw)) hv kv h1

/-- Enrichment returns a leaf unchanged (with any fuel left). -/
theorem enrichFuel_leaf (disp : JSON → JSON → JSON) (n : Nat) (v : JSON)
    (h : JSON.isLeaf v = true) : enrichFuel disp (n + 1) v = .ok v := by
  cases v <;> simp_all [JSON.isLeaf, enrichFuel]

/-- Enrichment maps a leaf-valued field list to itself when a level of
fuel remains for the values. -/
theorem mapPairs_leaves (disp : JSON → JSON → JSON) (n : Nat) :
    ∀ f : List (String × JSON), (∀ kv ∈ f, JSON.isLeaf kv.2 = true) →
      exceptMapPairs (enrichFuel disp (n + 1)) f = .ok f
  | [], _ => rfl
  | (k, v) :: rest, h => by
    simp only [exceptMapPairs, enrichFuel_leaf disp n v (h _ (List.mem_cons_self _ _))]
    rw [mapPairs_leaves disp n rest (fun kw hw => h kw (List.mem_cons_of_mem _ hw))]

/-- A flat coding deep enough in the fuel budget is enriched to
itself by the recursion (its own coding step does nothing and all its
values are leaves). -/
theorem enrichFuel_flat (disp : JSON → JSON → JSON) (c : JSON)
    (hc : flatCoding c = true) :
    ∀ fuel, jdepth c ≤ fuel → enrichFuel disp fuel c = .ok c := by
  cases c with
  | obj f =>
    intro fuel hf
    simp only [flatCoding, List.all_eq_true] at hc
    have h1 : 1 ≤ fuel := le_trans (jdepth_pos _) hf
    obtain ⟨fuel0, rfl⟩ : ∃ m, fuel = m + 1 := ⟨fuel - 1, by omega⟩
    simp only [enrichFuel]
    have hstep : codingStep disp f = .ok f := by
      simp only [codingStep]
      cases hl : JSON.lookupJ f "coding" with
      | none => rfl
      | some v =>
        have hleaf : JSON.isLeaf v = true := hc _ (lookupJ_mem f "coding" v hl)
        cases v <;> simp_all [JSON.isLeaf]
    cases f with
    | nil => simp [hstep, exceptMapPairs]
    | cons kv rest =>
      have h2 : 2 ≤ fuel0 + 1 := by
        have := jdepth_pos kv.2
        have hd : 1 ≤ fieldsDepth (kv :: rest) := by
          simp only [fieldsDepth]
          exact le_trans this (le_max_left _ _)
        simp only [jdepth] at hf
        omega
      obtain ⟨m, rfl⟩ : ∃ m, fuel0 = m + 1 := ⟨fuel0 - 1, by omega⟩
      simp [hstep, mapPairs_leaves disp m _ hc]
  | null => intro fuel hf; obtain ⟨m, rfl⟩ : ∃ m, fuel = m + 1 := ⟨fuel - 1, by have := jdepth_pos JSON.null; omega⟩; rfl
  | bool b => intro fuel hf; obtain ⟨m, rfl⟩ : ∃ m, fuel = m + 1 := ⟨fuel - 1, by have := jdepth_pos (JSON.bool b); omega⟩; rfl
  | num s => intro fuel hf; obtain ⟨m, rfl⟩ : ∃ m, fuel = m + 1 := ⟨fuel - 1, by have := jdepth_pos (JSON.num s); omega⟩; rfl
  | str s => intro fuel hf; obtain ⟨m, rfl⟩ : ∃ m, fuel = m + 1 := ⟨fuel - 1, by have := jdepth_pos (JSON.str s); omega⟩; rfl
  | arr xs => intro fuel hf; simp [flatCoding] at hc

/-- Leaves have depth 1. -/
theorem leaf_depth (v : JSON) (h : JSON.isLeaf v = true) : jdepth v = 1 := by
  cases v <;> simp_all [JSON.isLeaf, jdepth]

/-- The per-coding step on a flat coding: it succeeds, satisfies the
C3 per-coding contract, keeps the coding flat and no deeper, and is
idempotent. -/
theorem enrich_one_flat (disp : JSON → JSON → JSON)
    (hdisp : ∀ s c, JSON.isLeaf (disp s c) = true)
    (c : JSON) (hc : flatCoding c = true) :
    ∃ c1, enrich_one disp c = .ok c1
      ∧ codingClaim disp c c1
      ∧ flatCoding c1 = true
      ∧ jdepth c1 ≤ jdepth c
      ∧ enrich_one disp c1 = .ok c1 := by
  cases c with
  | obj f =>
    by_cases hs :JSON.hasKey f "system" = true
    case neg =>
      refine ⟨JSON.obj f, ?_, ?_, hc, le_refl _, ?_⟩
      · simp only [enrich_one, TerminologyService.pyIn]
        simp only [Bool.not_eq_true] at hs
        simp [hs]
      · refine ⟨fun g hg _ => rfl, fun g hg _ => rfl, fun g hg _ _ _ _ => rfl, Or.inr rfl⟩
      · simp only [enrich_one, TerminologyService.pyIn]
        simp only [Bool.not_eq_true] at hs
        simp [hs]
    case pos =>
    by_cases hco : JSON.hasKey f "code" = true
    case neg =>
      refine ⟨JSON.obj f, ?_, ?_, hc, le_refl _, ?_⟩
      · simp only [enrich_one, TerminologyService.pyIn]
        simp only [Bool.not_eq_true] at hco
        simp [hs, hco]
      · refine ⟨fun g hg _ => rfl, fun g hg _ => rfl, fun g hg _ _ _ _ => rfl, Or.inr rfl⟩
      · simp only [enrich_one, TerminologyService.pyIn]
        simp only [Bool.not_eq_true] at hco
        simp [hs, hco]
    case pos =>
    by_cases hdisp0 : JSON.truthy ((JSON.lookupJ f "display").getD JSON.null) = true
    case pos =>
      refine ⟨JSON.obj f, ?_, ?_, hc, le_refl _, ?_⟩
      · simp [enrich_one, TerminologyService.pyIn, hs, hco, hdisp0]
      · refine ⟨fun g hg _ => rfl, fun g hg _ => rfl, ?_, Or.inr rfl⟩
        intro g hg _ _ hfalse _
        simp only [JSON.obj.injEq] at hg
        subst hg
        rw [hdisp0] at hfalse
      · simp [enrich_one, TerminologyService.pyIn, hs, hco, hdisp0]
    case neg =>
    by_cases hdt : JSON.truthy (disp ((JSON.lookupJ f "system").getD JSON.null)
        ((JSON.lookupJ f "code").getD JSON.null)) = true
    case neg =>
      refine ⟨JSON.obj f, ?_, ?_, hc, le_refl _, ?_⟩
      · simp only [Bool.not_eq_true] at hdisp0 hdt
        simp [enrich_one, TerminologyService.pyIn, hs, hco, hdisp0, hdt]
      · exact ⟨fun g hg _ => rfl, fun g hg _ => rfl, fun g hg _ _ _ _ => rfl, Or.inr rfl⟩
      · simp only [Bool.not_eq_true] at hdisp0 hdt
        simp [enrich_one, TerminologyService.pyIn, hs, hco, hdisp0, hdt]
    case pos =>
      set v := disp ((JSON.lookupJ f "system").getD JSON.null)
        ((JSON.lookupJ f "code").getD JSON.null) with hv
      refine ⟨JSON.obj (JSON.setKey f "display" v), ?_, ?_, ?_, ?_, ?_⟩
      · simp only [Bool.not_eq_true] at hdisp0
        simp [enrich_one, TerminologyService.pyIn, hs, hco, hdisp0, hdt]
      · refine ⟨?_, ?_, ?_, Or.inl ⟨_, rfl, ?_⟩⟩
        · intro g hg htr
          simp only [JSON.obj.injEq] at hg
          subst hg
          exact absurd htr hdisp0
        · intro g hg hmiss
          simp only [JSON.obj.injEq] at hg
          subst hg
          rcases hmiss with hmiss | hmiss
          · rw [hs] at hmiss; cases hmiss
          · rw [hco] at hmiss; cases hmiss
        · intro g hg _ _ _ hfalse
          simp only [JSON.obj.injEq] at hg
          subst hg
          rw [← hv] at hfalse
          rw [hdt] at hfalse
          cases hfalse
        · simp [JSON.hasKey, lookupJ_setKey_same]
      · simp only [flatCoding, List.all_eq_true] at hc ⊢
        exact setKey_leaves f "display" v hc (hdisp _ _)
      · simp only [jdepth]
        have hb := fieldsDepth_setKey f "display" v
        have hv1 : jdepth v = 1 := leaf_depth v (hdisp _ _)
        have hfd : 1 ≤ fieldsDepth f := by
          simp only [JSON.hasKey, Option.isSome_iff_exists] at hs
          obtain ⟨w, hw⟩ := hs
          exact le_trans (jdepth_pos w) (lookupJ_depth f "system" w hw)
        rw [hv1] at hb
        omega
      · have hs1 : JSON.hasKey (JSON.setKey f "display" v) "system" = true :=
          hasKey_setKey f "display" v "system" hs
        have hco1 : JSON.hasKey (JSON.setKey f "display" v) "code" = true :=
          hasKey_setKey f "display" v "code" hco
        have hd1 : JSON.truthy ((JSON.lookupJ (JSON.setKey f "display" v) "display").getD JSON.null) = true := by
          rw [lookupJ_setKey_same]
          exact hdt
        simp [enrich_one, TerminologyService.pyIn, hs1, hco1, hd1]
  | null => simp [flatCoding] at hc
  | bool b => simp [flatCoding] at hc
  | num s => simp [flatCoding] at hc
  | str s => simp [flatCoding] at hc
  | arr xs => simp [flatCoding] at hc

/-- The coding-array step on an array of flat codings: it succeeds,
relates the arrays positionally by the C3 per-coding contract, keeps
every member flat, never deepens the array, and is idempotent. -/
theorem enrich_coding_list_flat (disp : JSON → JSON → JSON)
    (hdisp : ∀ s c, JSON.isLeaf (disp s c) = true) :
    ∀ cs : List JSON, (∀ c ∈ cs, flatCoding c = true) →
    ∃ cs1, enrich_coding_list disp cs = .ok cs1
      ∧ List.Forall₂ (codingClaim disp) cs cs1
      ∧ (∀ c ∈ cs1, flatCoding c = true)
      ∧ listDepth cs1 ≤ listDepth cs
      ∧ enrich_coding_list disp cs1 = .ok cs1
  | [], _ => ⟨[], rfl, List.Forall₂.nil, by simp, le_refl _, rfl⟩
  | c :: rest, h => by
    obtain ⟨c1, hrun, hclaim, hflat, hdepth, hfix⟩ :=
      enrich_one_flat disp hdisp c (h c (List.mem_cons_self _ _))
    obtain ⟨cs1, hrun2, hclaim2, hflat2, hdepth2, hfix2⟩ :=
      enrich_coding_list_flat disp hdisp rest (fun d hd => h d (List.mem_cons_of_mem _ hd))
    refine ⟨c1 :: cs1, ?_, List.Forall₂.cons hclaim hclaim2, ?_, ?_, ?_⟩
    · simp only [enrich_coding_list, exceptMapList, hrun]
      simp only [enrich_coding_list] at hrun2
      rw [hrun2]
    · intro d hd
      rcases List.mem_cons.mp hd with h1 | h1
      · subst h1; exact hflat
      · exact hflat2 d h1
    · simp only [listDepth]
      exact max_le (le_trans hdepth (le_max_left _ _)) (le_trans hdepth2 (le_max_right _ _))
    · simp only [enrich_coding_list, exceptMapList, hfix]
      simp only [enrich_coding_list] at hfix2
      rw [hfix2]

/-- Replacing a present key by a value with the same coding bags keeps
the field-list bags unchanged. -/
theorem bagsFields_setKey_present : ∀ (f : List (String × JSON)) (k : String) (v w : JSON),
    JSON.lookupJ f k = some w → codingBags v = codingBags w →
    codingBagsFields (JSON.setKey f k v) = codingBagsFields f
  | [], k, v, w, h, _ => by simp [JSON.lookupJ] at h
  | (k0, u) :: rest, k, v, w, h, hb => by
    by_cases h0 : k0 = k
    · subst h0
      simp only [JSON.lookupJ, if_true, Option.some.injEq] at h
      subst h
      simp only [JSON.setKey, if_true, codingBagsFields, hb]
    · simp only [JSON.lookupJ, h0, if_false] at h
      simp only [JSON.setKey, h0, if_false, codingBagsFields]
      rw [bagsFields_setKey_present rest k v w h hb]

/-- Appending a fresh key adds its bags at the end of the field-list
bags. -/
theorem bagsFields_setKey_absent : ∀ (f : List (String × JSON)) (k : String) (v : JSON),
    JSON.lookupJ f k = none →
    codingBagsFields (JSON.setKey f k v) = codingBagsFields f ++ codingBags v
  | [], k, v, _ => by simp [JSON.setKey, codingBagsFields]
  | (k0, u) :: rest, k, v, h => by
    by_cases h0 : k0 = k
    · simp [JSON.lookupJ, h0] at h
    · simp only [JSON.lookupJ, h0, if_false] at h
      simp only [JSON.setKey, h0, if_false, codingBagsFields]
      rw [bagsFields_setKey_absent rest k v h, List.append_assoc]

/-- Setting a well-formed value keeps the field list well-formed. -/
theorem recordWFFields_setKey : ∀ (f : List (String × JSON)) (k : String) (v : JSON),
    recordWFFields f = true → recordWF v = true →
    recordWFFields (JSON.setKey f k v) = true
  | [], k, v, _, hv => by simp [JSON.setKey, recordWFFields, hv]
  | (k0, u) :: rest, k, v, h, hv => by
    simp only [recordWFFields, Bool.and_eq_true] at h
    by_cases h0 : k0 = k
    · simp only [JSON.setKey, h0, if_true, recordWFFields, Bool.and_eq_true]
      exact ⟨hv, h.2⟩
    · simp only [JSON.setKey, h0, if_false, recordWFFields, Bool.and_eq_true]
      exact ⟨h.1, recordWFFields_setKey rest k v h.2 hv⟩

/-- A member value of a well-formed field list is well-formed. -/
theorem recordWFFields_mem : ∀ (f : List (String × JSON)),
    recordWFFields f = true → ∀ kv ∈ f, recordWF kv.2 = true
  | [], _, kv, hkv => by cases hkv
  | kw :: rest, h, kv, hkv => by
    simp only [recordWFFields, Bool.and_eq_true] at h
    rcases List.mem_cons.mp hkv with h1 | h1
    · subst h1; exact h.1
    · exact recordWFFields_mem rest h.2 kv h1

/-- A member of a well-formed list of records is well-formed. -/
theorem recordWFList_mem : ∀ (xs : List JSON),
    recordWFList xs = true → ∀ x ∈ xs, recordWF x = true
  | [], _, x, hx => by cases hx
  | y :: rest, h, x, hx => by
    simp only [recordWFList, Bool.and_eq_true] at h
    rcases List.mem_cons.mp hx with h1 | h1
    · subst h1; exact h.1
    · exact recordWFList_mem rest h.2 x h1

/-- A list of flat codings is a well-formed record list. -/
theorem flatList_recordWFList : ∀ cs : List JSON,
    (∀ c ∈ cs, flatCoding c = true) → recordWFList cs = true
  | [], _ => rfl
  | c :: rest, h => by
    simp only [recordWFList, Bool.and_eq_true]
    exact ⟨flat_recordWF c (h c (List.mem_cons_self _ _)),
      flatList_recordWFList rest (fun d hd => h d (List.mem_cons_of_mem _ hd))⟩

/-- A falsy value holds no coding arrays (falsy containers are empty). -/
theorem falsy_bags (u : JSON) (h : JSON.truthy u = false) : codingBags u = [] := by
  cases u with
  | arr xs => cases xs <;> simp_all [JSON.truthy, codingBags, codingBagsList]
  | obj f => cases f <;> simp_all [JSON.truthy, codingBags, codingBagsFields, JSON.lookupJ]
  | null => rfl
  | bool b => rfl
  | num s => rfl
  | str s => rfl

/-- Flat codings at the fuel budget map to themselves elementwise. -/
theorem mapList_flat (disp : JSON → JSON → JSON) (m : Nat) :
    ∀ cs : List JSON, (∀ c ∈ cs, flatCoding c = true) → listDepth cs ≤ m →
      exceptMapList (enrichFuel disp m) cs = .ok cs
  | [], _, _ => rfl
  | c :: rest, h, hd => by
    simp only [listDepth] at hd
    simp only [exceptMapList,
      enrichFuel_flat disp c (h c (List.mem_cons_self _ _)) m
        (le_trans (le_max_left _ _) hd)]
    rw [mapList_flat disp m rest (fun d hd2 => h d (List.mem_cons_of_mem _ hd2))
      (le_trans (le_max_right _ _) hd)]

/-- An array of flat codings deep enough in the fuel budget is
enriched to itself. -/
theorem enrichFuel_flatArr (disp : JSON → JSON → JSON) (cs : List JSON)
    (h : ∀ c ∈ cs, flatCoding c = true) (fuel : Nat)
    (hd : jdepth (JSON.arr cs) ≤ fuel) :
    enrichFuel disp fuel (JSON.arr cs) = .ok (JSON.arr cs) := by
  obtain ⟨m, rfl⟩ : ∃ m, fuel = m + 1 :=
    ⟨fuel - 1, by have := jdepth_pos (JSON.arr cs); omega⟩
  simp only [enrichFuel]
  rw [mapList_flat disp m cs h (by simp only [jdepth] at hd; omega)]

/-- `setKey` never produces the empty dict. -/
theorem setKey_ne_nil : ∀ (f : List (String × JSON)) (k : String) (v : JSON),
    JSON.setKey f k v ≠ []
  | [], k, v => by simp [JSON.setKey]
  | (k0, w) :: rest, k, v => by
    simp only [JSON.setKey]
    by_cases h0 : k0 = k <;> simp [h0]

/-- Full characterization of the dict-level coding/text step on a
well-formed field list: it succeeds without deepening the fields,
preserves well-formedness, keeps the field-level coding bags, keeps
emptiness, and either leaves the fields untouched (no list-valued
`coding` entry) or rewrites the coding array by the per-coding
contract and records what it did to `text`. -/
theorem codingStep_wf (disp : JSON → JSON → JSON)
    (hdisp : ∀ s c, JSON.isLeaf (disp s c) = true)
    (fields : List (String × JSON))
    (hguard : ∀ cs, JSON.lookupJ fields "coding" = some (JSON.arr cs) →
      ∀ c ∈ cs, flatCoding c = true)
    (hwf : recordWFFields fields = true) :
    ∃ fields1, codingStep disp fields = .ok fields1
      ∧ fieldsDepth fields1 ≤ fieldsDepth fields
      ∧ recordWFFields fields1 = true
      ∧ codingBagsFields fields1 = codingBagsFields fields
      ∧ (fields1 = [] ↔ fields = [])
      ∧ ((fields1 = fields ∧ (∀ cs, JSON.lookupJ fields "coding" ≠ some (JSON.arr cs)))
        ∨ (∃ cs cs1, JSON.lookupJ fields "coding" = some (JSON.arr cs)
            ∧ JSON.lookupJ fields1 "coding" = some (JSON.arr cs1)
            ∧ List.Forall₂ (codingClaim disp) cs cs1
            ∧ (∀ c ∈ cs1, flatCoding c = true)
            ∧ enrich_coding_list disp cs1 = .ok cs1
            ∧ (JSON.truthy ((JSON.lookupJ fields1 "text").getD JSON.null) = true
              ∨ cs1 = []
              ∨ (∃ t, JSON.lookupJ fields1 "text" = some t ∧ JSON.isLeaf t = true
                  ∧ ∀ f0, cs1.head? = some (JSON.obj f0) →
                    t = (JSON.lookupJ f0 "display").getD (JSON.str ""))))) := by
  cases hl : JSON.lookupJ fields "coding" with
  | none =>
    refine ⟨fields, ?_, le_refl _, hwf, rfl, Iff.rfl, Or.inl ⟨rfl, ?_⟩⟩
    · simp [codingStep, hl]
    · intro cs hcs
      simp [hl] at hcs
  | some w =>
    cases w with
    | arr cs =>
      have hflat := hguard cs hl
      obtain ⟨cs1, hrun, hrel, hflat1, hld, hfix⟩ :=
        enrich_coding_list_flat disp hdisp cs hflat
      have hbagseq : codingBags (JSON.arr cs1) = codingBags (JSON.arr cs) := by
        simp only [codingBags]
        rw [flatList_bags cs hflat, flatList_bags cs1 hflat1]
      have hdarr : jdepth (JSON.arr cs1) ≤ jdepth (JSON.arr cs) := by
        simp only [jdepth]; omega
      have hdarr0 : jdepth (JSON.arr cs) ≤ fieldsDepth fields := lookupJ_depth _ _ _ hl
      have hfne : fields ≠ [] := by
        intro h0
        rw [h0] at hl
        simp [JSON.lookupJ] at hl
      have hda : fieldsDepth (JSON.setKey fields "coding" (JSON.arr cs1))
          ≤ fieldsDepth fields := by
        refine le_trans (fieldsDepth_setKey _ _ _) (max_le (le_refl _) ?_)
        exact le_trans hdarr hdarr0
      have hwfa : recordWFFields (JSON.setKey fields "coding" (JSON.arr cs1)) = true := by
        refine recordWFFields_setKey _ _ _ hwf ?_
        simp only [recordWF]
        exact flatList_recordWFList cs1 hflat1
      have hbagsa : codingBagsFields (JSON.setKey fields "coding" (JSON.arr cs1))
          = codingBagsFields fields :=
        bagsFields_setKey_present fields "coding" (JSON.arr cs1) (JSON.arr cs) hl hbagseq
      have hsetne : JSON.setKey fields "coding" (JSON.arr cs1) ≠ [] := by
        cases fields with
        | nil => exact absurd rfl hfne
        | cons kv rest =>
          simp only [JSON.setKey]
          by_cases h0 : kv.1 = "coding" <;> simp [h0]
      have hlook1 : JSON.lookupJ (JSON.setKey fields "coding" (JSON.arr cs1)) "coding"
          = some (JSON.arr cs1) := lookupJ_setKey_same _ _ _
      simp only [codingStep, hl, hrun]
      by_cases hcond : (!JSON.truthy ((JSON.lookupJ
          (JSON.setKey fields "coding" (JSON.arr cs1)) "text").getD JSON.null)
          && !cs1.isEmpty) = true
      · rw [if_pos hcond]
        simp only [Bool.and_eq_true, Bool.not_eq_true'] at hcond
        obtain ⟨htext, hne⟩ := hcond
        obtain ⟨c0, rest1, rfl⟩ : ∃ c0 r, cs1 = c0 :: r := by
          cases cs1 with
          | nil => simp at hne
          | cons a b => exact ⟨a, b, rfl⟩
        have hc0flat : flatCoding c0 = true := hflat1 c0 (List.mem_cons_self _ _)
        cases c0 with
          | obj f0 =>
            have htleaf : JSON.isLeaf ((JSON.lookupJ f0 "display").getD (JSON.str "")) = true := by
              cases hld0 : JSON.lookupJ f0 "display" with
              | none => rfl
              | some d =>
                simp only [flatCoding, List.all_eq_true] at hc0flat
                exact hc0flat _ (lookupJ_mem f0 "display" d hld0)
            refine ⟨_, rfl, ?_, ?_, ?_, ?_, Or.inr ⟨cs, _, rfl, ?_, hrel, hflat1, hfix, ?_⟩⟩
            · refine le_trans (fieldsDepth_setKey _ _ _) (max_le hda ?_)
              rw [leaf_depth _ htleaf]
              have h1 : 1 ≤ jdepth (JSON.arr cs) := jdepth_pos _
              omega
            · exact recordWFFields_setKey _ _ _ hwfa (leaf_recordWF _ htleaf)
            · rw [← hbagsa]
              cases hlt : JSON.lookupJ
                  (JSON.setKey fields "coding" (JSON.arr (JSON.obj f0 :: rest1))) "text" with
              | none =>
                rw [bagsFields_setKey_absent _ _ _ hlt, leaf_bags _ htleaf, List.append_nil]
              | some u =>
                refine bagsFields_setKey_present _ _ _ u hlt ?_
                rw [leaf_bags _ htleaf, falsy_bags u ?_]
                rw [hlt] at htext
                simpa using htext
            · exact ⟨fun h0 => absurd h0 (setKey_ne_nil _ _ _), fun h0 => absurd h0 hfne⟩
            · rw [lookupJ_setKey_other _ "text" _ "coding" (by decide), hlook1]
            · refine Or.inr (Or.inr ⟨_, lookupJ_setKey_same _ _ _, htleaf, ?_⟩)
              intro g0 hg0
              simp only [List.head?] at hg0
              simp only [Option.some.injEq, JSON.obj.injEq] at hg0
              rw [hg0]
          | null => simp [flatCoding] at hc0flat
          | bool b => simp [flatCoding] at hc0flat
          | num s => simp [flatCoding] at hc0flat
          | str s => simp [flatCoding] at hc0flat
          | arr xs => simp [flatCoding] at hc0flat
      · rw [if_neg (by simpa using hcond)]
        refine ⟨_, rfl, hda, hwfa, hbagsa, ⟨fun h0 => absurd h0 hsetne, fun h0 => absurd h0 hfne⟩,
          Or.inr ⟨cs, cs1, rfl, hlook1, hrel, hflat1, hfix, ?_⟩⟩
        simp only [Bool.and_eq_true, Bool.not_eq_true'] at hcond
        push_neg at hcond
        by_cases ht : JSON.truthy ((JSON.lookupJ
            (JSON.setKey fields "coding" (JSON.arr cs1)) "text").getD JSON.null) = true
        · exact Or.inl ht
        · refine Or.inr (Or.inl ?_)
          simp only [Bool.not_eq_true] at ht
          have := hcond ht
          simpa using this
    | null =>
      refine ⟨fields, by simp [codingStep, hl], le_refl _, hwf, rfl, Iff.rfl, Or.inl ⟨rfl, ?_⟩⟩
      intro cs hcs; simp [hl] at hcs
    | bool b =>
      refine ⟨fields, by simp [codingStep, hl], le_refl _, hwf, rfl, Iff.rfl, Or.inl ⟨rfl, ?_⟩⟩
      intro cs hcs; simp [hl] at hcs
    | num s =>
      refine ⟨fields, by simp [codingStep, hl], le_refl _, hwf, rfl, Iff.rfl, Or.inl ⟨rfl, ?_⟩⟩
      intro cs hcs; simp [hl] at hcs
    | str s =>
      refine ⟨fields, by simp [codingStep, hl], le_refl _, hwf, rfl, Iff.rfl, Or.inl ⟨rfl, ?_⟩⟩
      intro cs hcs; simp [hl] at hcs
    | obj g =>
      refine ⟨fields, by simp [codingStep, hl], le_refl _, hwf, rfl, Iff.rfl, Or.inl ⟨rfl, ?_⟩⟩
      intro cs hcs; simp [hl] at hcs

/-- Mapping enrichment over the values of a well-formed field list
within the fuel budget: pointwise success, preserved well-formedness,
bounded depth, related bags, and idempotence — given the same package
one level down. -/
theorem mapPairs_enrich (disp : JSON → JSON → JSON) (fuel : Nat)
    (IH : ∀ j, jdepth j ≤ fuel → recordWF j = true → ∃ r, EnrichOK disp fuel j r) :
    ∀ fs : List (String × JSON), fieldsDepth fs ≤ fuel → recordWFFields fs = true →
      ∃ gs, exceptMapPairs (enrichFuel disp fuel) fs = .ok gs
        ∧ recordWFFields gs = true
        ∧ fieldsDepth gs ≤ fieldsDepth fs
        ∧ List.Forall₂ (List.Forall₂ (codingClaim disp))
            (codingBagsFields fs) (codingBagsFields gs)
        ∧ exceptMapPairs (enrichFuel disp fuel) gs = .ok gs
  | [], _, _ => ⟨[], rfl, rfl, le_refl _, List.Forall₂.nil, rfl⟩
  | (k, v) :: rest, hd, hwf => by
    simp only [fieldsDepth] at hd
    simp only [recordWFFields, Bool.and_eq_true] at hwf
    obtain ⟨r, hpack⟩ := IH v (le_trans (le_max_left _ _) hd) hwf.1
    simp only [EnrichOK] at hpack
    obtain ⟨hrun, hrwf, hrd, htru, htag, hbags, hfixv⟩ := hpack
    obtain ⟨gs, hgrun, hgwf, hgd, hgbags, hgfix⟩ :=
      mapPairs_enrich disp fuel IH rest (le_trans (le_max_right _ _) hd) hwf.2
    refine ⟨(k, r) :: gs, ?_, ?_, ?_, ?_, ?_⟩
    · simp only [exceptMapPairs, hrun]
      rw [hgrun]
    · simp only [recordWFFields, Bool.and_eq_true]
      exact ⟨hrwf, hgwf⟩
    · simp only [fieldsDepth]
      exact max_le (le_trans hrd (le_max_left _ _)) (le_trans hgd (le_max_right _ _))
    · simp only [codingBagsFields]
      exact List.rel_append hbags hgbags
    · simp only [exceptMapPairs, hfixv]
      rw [hgfix]

/-- The list version of `mapPairs_enrich`, with the element count kept
(lists keep their length under enrichment). -/
theorem mapList_enrich (disp : JSON → JSON → JSON) (fuel : Nat)
    (IH : ∀ j, jdepth j ≤ fuel → recordWF j = true → ∃ r, EnrichOK disp fuel j r) :
    ∀ xs : List JSON, listDepth xs ≤ fuel → recordWFList xs = true →
      ∃ ys, exceptMapList (enrichFuel disp fuel) xs = .ok ys
        ∧ recordWFList ys = true
        ∧ listDepth ys ≤ listDepth xs
        ∧ ys.length = xs.length
        ∧ List.Forall₂ (List.Forall₂ (codingClaim disp))
            (codingBagsList xs) (codingBagsList ys)
        ∧ exceptMapList (enrichFuel disp fuel) ys = .ok ys
  | [], _, _ => ⟨[], rfl, rfl, le_refl _, rfl, List.Forall₂.nil, rfl⟩
  | x :: rest, hd, hwf => by
    simp only [listDepth] at hd
    simp only [recordWFList, Bool.and_eq_true] at hwf
    obtain ⟨r, hpack⟩ := IH x (le_trans (le_max_left _ _) hd) hwf.1
    simp only [EnrichOK] at hpack
    obtain ⟨hrun, hrwf, hrd, htru, htag, hbags, hfixv⟩ := hpack
    obtain ⟨ys, hgrun, hgwf, hgd, hglen, hgbags, hgfix⟩ :=
      mapList_enrich disp fuel IH rest (le_trans (le_max_right _ _) hd) hwf.2
    refine ⟨r :: ys, ?_, ?_, ?_, ?_, ?_, ?_⟩
    · simp only [exceptMapList, hrun]
      rw [hgrun]
    · simp only [recordWFList, Bool.and_eq_true]
      exact ⟨hrwf, hgwf⟩
    · simp only [listDepth]
      exact max_le (le_trans hrd (le_max_left _ _)) (le_trans hgd (le_max_right _ _))
    · simp [hglen]
    · simp only [codingBagsList]
      exact List.rel_append hbags hgbags
    · simp only [exceptMapList, hfixv]
      rw [hgfix]

/-- The enrichment induction: within the fuel budget, every
well-formed record is enriched successfully to a well-formed record of
the same kind, no deeper, with positionally related coding arrays, and
the result is a fixed point of enrichment. -/
theorem enrich_main (disp : JSON → JSON → JSON)
    (hdisp : ∀ s c, JSON.isLeaf (disp s c) = true) :
    ∀ (fuel : Nat) (j : JSON), jdepth j ≤ fuel → recordWF j = true →
      ∃ r, EnrichOK disp fuel j r := by
  intro fuel
  induction fuel with
  | zero =>
    intro j hj _
    have := jdepth_pos j
    omega
  | succ fuel ih =>
    intro j hj hwf
    cases j with
    | null => exact ⟨JSON.null, rfl, rfl, le_refl _, rfl, rfl, List.Forall₂.nil, rfl⟩
    | bool b => exact ⟨JSON.bool b, rfl, rfl, le_refl _, rfl, rfl, List.Forall₂.nil, rfl⟩
    | num s => exact ⟨JSON.num s, rfl, rfl, le_refl _, rfl, rfl, List.Forall₂.nil, rfl⟩
    | str s => exact ⟨JSON.str s, rfl, rfl, le_refl _, rfl, rfl, List.Forall₂.nil, rfl⟩
    | arr xs =>
      simp only [jdepth] at hj
      simp only [recordWF] at hwf
      obtain ⟨ys, hrun, hywf, hyd, hylen, hybags, hyfix⟩ :=
        mapList_enrich disp fuel ih xs (by omega) hwf
      refine ⟨JSON.arr ys, ?_, ?_, ?_, ?_, rfl, ?_, ?_⟩
      · simp only [enrichFuel, hrun]
      · simpa only [recordWF] using hywf
      · simp only [jdepth]; omega
      · cases xs <;> cases ys <;> simp_all [JSON.truthy]
      · simpa only [codingBags] using hybags
      · simp only [enrichFuel, hyfix]
    | obj fields =>
      simp only [jdepth] at hj
      simp only [recordWF, Bool.and_eq_true] at hwf
      obtain ⟨hguard0, hwff⟩ := hwf
      have hguard : ∀ cs, JSON.lookupJ fields "coding" = some (JSON.arr cs) →
          ∀ c ∈ cs, flatCoding c = true := by
        intro cs hcs
        rw [hcs] at hguard0
        simpa [List.all_eq_true] using hguard0
      obtain ⟨fields1, hstep, hd1, hwf1, hbags1, hemp1, hbranch⟩ :=
        codingStep_wf disp hdisp fields hguard hwff
      have hdd : fieldsDepth fields1 ≤ fuel := by omega
      obtain ⟨fields2, hrun2, hwf2, hd2, hbags2, hfix2⟩ :=
        mapPairs_enrich disp fuel ih fields1 hdd hwf1
      have hmp := lookupJ_mapPairs (enrichFuel disp fuel) fields1 fields2 hrun2
      have hval : ∀ k v, JSON.lookupJ fields1 k = some v →
          jdepth v ≤ fuel ∧ recordWF v = true := by
        intro k v hv
        exact ⟨le_trans (lookupJ_depth _ _ _ hv) hdd,
          recordWFFields_mem fields1 hwf1 _ (lookupJ_mem _ _ _ hv)⟩
      have hlen2 : fields2.length = fields1.length :=
        (((exceptMapPairs_ok _ fields1 fields2).mp hrun2).length_eq).symm
      -- the enriched value of any key, with its induction package
      have hkey : ∀ k v, JSON.lookupJ fields1 k = some v →
          ∃ v2, JSON.lookupJ fields2 k = some v2 ∧ EnrichOK disp fuel v v2 := by
        intro k v hv
        obtain ⟨v2, hfv, hl2⟩ := (hmp k).1 v hv
        obtain ⟨r2, hpack⟩ := ih v (hval k v hv).1 (hval k v hv).2
        have hrv : r2 = v2 := by
          have h1 := hpack.1
          rw [hfv] at h1
          exact (Except.ok.inj h1).symm
        subst hrv
        exact ⟨r2, hl2, hpack⟩
      refine ⟨JSON.obj fields2, ?_, ?_, ?_, ?_, rfl, ?_, ?_⟩
      · simp only [enrichFuel, hstep, hrun2]
      · -- well-formedness of the result
        simp only [recordWF, Bool.and_eq_true]
        refine ⟨?_, hwf2⟩
        rcases hbranch with ⟨heq, hnarr⟩ | ⟨cs, cs1, hl, hl1, hrel, hflat1, hfixcl, htext⟩
        · subst heq
          cases hlc : JSON.lookupJ fields1 "coding" with
          | none => rw [(hmp "coding").2 hlc]
          | some w =>
            obtain ⟨w2, hl2, hpack⟩ := hkey "coding" w hlc
            rw [hl2]
            cases w2 with
            | arr zs =>
              exfalso
              have htag := hpack.2.2.2.2.1
              cases w with
              | arr ws => exact hnarr ws hlc
              | null => simp [jtag] at htag
              | bool b => simp [jtag] at htag
              | num s => simp [jtag] at htag
              | str s => simp [jtag] at htag
              | obj g => simp [jtag] at htag
            | null => rfl
            | bool b => rfl
            | num s => rfl
            | str s => rfl
            | obj g => rfl
        · obtain ⟨v2, hl2, hpack⟩ := hkey "coding" (JSON.arr cs1) hl1
          have hid : enrichFuel disp fuel (JSON.arr cs1) = .ok (JSON.arr cs1) :=
            enrichFuel_flatArr disp cs1 hflat1 fuel
              (le_trans (lookupJ_depth _ _ _ hl1) hdd)
          have : v2 = JSON.arr cs1 := by
            have h1 := hpack.1
            rw [hid] at h1
            exact (Except.ok.inj h1).symm
          subst this
          rw [hl2]
          simpa [List.all_eq_true] using hflat1
      · simp only [jdepth]; omega
      · have hiff : fields2 = [] ↔ fields = [] := by
          constructor
          · intro h0
            rw [h0] at hlen2
            have : fields1 = [] := by
              cases fields1 with
              | nil => rfl
              | cons a b => simp at hlen2
            exact hemp1.mp this
          · intro h0
            have h1 : fields1 = [] := hemp1.mpr h0
            rw [h1] at hlen2
            cases fields2 with
            | nil => rfl
            | cons a b => simp at hlen2
        cases hf2 : fields2 with
        | nil =>
          have := hiff.mp hf2
          rw [this]
        | cons a b =>
          cases hf : fields with
          | nil =>
            exfalso
            have := hiff.mpr hf
            rw [hf2] at this
            cases this
          | cons c d => rfl
      · -- bags
        rcases hbranch with ⟨heq, hnarr⟩ | ⟨cs, cs1, hl, hl1, hrel, hflat1, hfixcl, htext⟩
        · subst heq
          cases hlc : JSON.lookupJ fields1 "coding" with
          | none =>
            have h2 := (hmp "coding").2 hlc
            simp only [codingBags, hlc, h2]
            simpa using hbags2
          | some w =>
            obtain ⟨w2, hl2, hpack⟩ := hkey "coding" w hlc
            have htag := hpack.2.2.2.2.1
            cases w with
            | arr ws => exact absurd hlc (hnarr ws)
            | null =>
              cases w2 with
              | arr zs => simp [jtag] at htag
              | null => simp only [codingBags, hlc, hl2]; simpa using hbags2
              | bool b => simp only [codingBags, hlc, hl2]; simpa using hbags2
              | num s => simp only [codingBags, hlc, hl2]; simpa using hbags2
              | str s => simp only [codingBags, hlc, hl2]; simpa using hbags2
              | obj g => simp only [codingBags, hlc, hl2]; simpa using hbags2
            | bool b0 =>
              cases w2 with
              | arr zs => simp [jtag] at htag
              | null => simp only [codingBags, hlc, hl2]; simpa using hbags2
              | bool b => simp only [codingBags, hlc, hl2]; simpa using hbags2
              | num s => simp only [codingBags, hlc, hl2]; simpa using hbags2
              | str s => simp only [codingBags, hlc, hl2]; simpa using hbags2
              | obj g => simp only [codingBags, hlc, hl2]; simpa using hbags2
            | num s0 =>
              cases w2 with
              | arr zs => simp [jtag] at htag
              | null => simp only [codingBags, hlc, hl2]; simpa using hbags2
              | bool b => simp only [codingBags, hlc, hl2]; simpa using hbags2
              | num s => simp only [codingBags, hlc, hl2]; simpa using hbags2
              | str s => simp only [codingBags, hlc, hl2]; simpa using hbags2
              | obj g => simp only [codingBags, hlc, hl2]; simpa using hbags2
            | str s0 =>
              cases w2 with
              | arr zs => simp [jtag] at htag
              | null => simp only [codingBags, hlc, hl2]; simpa using hbags2
              | bool b => simp only [codingBags, hlc, hl2]; simpa using hbags2
              | num s => simp only [codingBags, hlc, hl2]; simpa using hbags2
              | str s => simp only [codingBags, hlc, hl2]; simpa using hbags2
              | obj g => simp only [codingBags, hlc, hl2]; simpa using hbags2
            | obj g0 =>
              cases w2 with
              | arr zs => simp [jtag] at htag
              | null => simp only [codingBags, hlc, hl2]; simpa using hbags2
              | bool b => simp only [codingBags, hlc, hl2]; simpa using hbags2
              | num s => simp only [codingBags, hlc, hl2]; simpa using hbags2
              | str s => simp only [codingBags, hlc, hl2]; simpa using hbags2
              | obj g => simp only [codingBags, hlc, hl2]; simpa using hbags2
        · simp only [codingBags]
          obtain ⟨v2, hl2, hpack⟩ := hkey "coding" (JSON.arr cs1) hl1
          have hid := enrichFuel_flatArr disp cs1 hflat1 fuel
            (le_trans (lookupJ_depth _ _ _ hl1) hdd)
          have hv2 : v2 = JSON.arr cs1 := by
            have h1 := hpack.1
            rw [hid] at h1
            exact (Except.ok.inj h1).symm
          subst hv2
          simp only [codingBags, hl, hl2]
          rw [hbags1] at hbags2
          exact List.rel_append (List.Forall₂.cons hrel List.Forall₂.nil) hbags2
      · -- idempotence at the same fuel
        have hstep2 : codingStep disp fields2 = .ok fields2 := by
          rcases hbranch with ⟨heq, hnarr⟩ | ⟨cs, cs1, hl, hl1, hrel, hflat1, hfixcl, htext⟩
          · subst heq
            cases hlc : JSON.lookupJ fields1 "coding" with
            | none =>
              have h2 : JSON.lookupJ fields2 "coding" = none := (hmp "coding").2 hlc
              simp [codingStep, h2]
            | some w =>
              obtain ⟨w2, hl2, hpack⟩ := hkey "coding" w hlc
              have htag := hpack.2.2.2.2.1
              cases w2 with
              | arr zs =>
                exfalso
                cases w with
                | arr ws => exact hnarr ws hlc
                | null => simp [jtag] at htag
                | bool b => simp [jtag] at htag
                | num s => simp [jtag] at htag
                | str s => simp [jtag] at htag
                | obj g => simp [jtag] at htag
              | null => simp [codingStep, hl2]
              | bool b => simp [codingStep, hl2]
              | num s => simp [codingStep, hl2]
              | str s => simp [codingStep, hl2]
              | obj g => simp [codingStep, hl2]
          · obtain ⟨v2, hl2, hpack⟩ := hkey "coding" (JSON.arr cs1) hl1
            have hid := enrichFuel_flatArr disp cs1 hflat1 fuel
              (le_trans (lookupJ_depth _ _ _ hl1) hdd)
            have hv2 : v2 = JSON.arr cs1 := by
              have h1 := hpack.1
              rw [hid] at h1
              exact (Except.ok.inj h1).symm
            subst hv2
            have hsk : JSON.setKey fields2 "coding" (JSON.arr cs1) = fields2 :=
              setKey_self _ _ _ hl2
            rcases htext with htru | hempty | ⟨t, hlt1, htleaf, hform⟩
            · cases hlt : JSON.lookupJ fields1 "text" with
              | none =>
                rw [hlt] at htru
                simp [JSON.truthy] at htru
              | some t1 =>
                rw [hlt] at htru
                obtain ⟨t2, hlt2, hpk⟩ := hkey "text" t1 hlt
                have htut : JSON.truthy t2 = JSON.truthy t1 := hpk.2.2.2.1
                simp only [Option.getD] at htru
                simp [codingStep, hl2, hfixcl, hsk, hlt2, htut, htru]
            · subst hempty
              simp [codingStep, hl2, hsk, enrich_coding_list, exceptMapList]
            · obtain ⟨t2, hlt2, hpk⟩ := hkey "text" t hlt1
              have hfuel1 : 1 ≤ fuel :=
                le_trans (jdepth_pos t) (hval "text" t hlt1).1
              obtain ⟨m, rfl⟩ : ∃ m, fuel = m + 1 := ⟨fuel - 1, by omega⟩
              have ht2 : t2 = t := by
                have h1 := hpk.1
                rw [enrichFuel_leaf disp m t htleaf] at h1
                exact (Except.ok.inj h1).symm
              subst ht2
              by_cases htt : JSON.truthy t2 = true
              · simp [codingStep, hl2, hfixcl, hsk, hlt2, htt]
              · simp only [Bool.not_eq_true] at htt
                have hfixcl2 : exceptMapList (enrich_one disp) cs1 = Except.ok cs1 := hfixcl
                cases hcs1 : cs1 with
                | nil =>
                  rw [hcs1] at hl2 hfixcl2 hsk
                  simp [codingStep, enrich_coding_list, exceptMapList, hl2, hsk]
                | cons c0 rest1 =>
                  have hc0 : flatCoding c0 = true := by
                    apply hflat1
                    rw [hcs1]
                    exact List.mem_cons_self _ _
                  rw [hcs1] at hl2 hfixcl2 hsk hform
                  cases c0 with
                  | obj f0 =>
                    have hformt := hform f0 rfl
                    have hsk2 : JSON.setKey fields2 "text"
                        ((JSON.lookupJ f0 "display").getD (JSON.str "")) = fields2 := by
                      rw [← hformt]
                      exact setKey_self _ _ _ hlt2
                    simp [codingStep, enrich_coding_list, hl2, hfixcl2, hsk, hlt2, htt, hsk2]
                  | null => simp [flatCoding] at hc0
                  | bool b => simp [flatCoding] at hc0
                  | num s => simp [flatCoding] at hc0
                  | str s => simp [flatCoding] at hc0
                  | arr xs2 => simp [flatCoding] at hc0
        simp only [enrichFuel, hstep2, hfix2]

/-- Enrichment is fuel-irrelevant above the record depth: any two
sufficient budgets give the same result on a well-formed record. -/
theorem enrichFuel_congr (disp : JSON → JSON → JSON)
    (hdisp : ∀ s c, JSON.isLeaf (disp s c) = true) :
    ∀ f1 f2, f1 ≤ f2 → ∀ j, jdepth j ≤ f1 → recordWF j = true →
      enrichFuel disp f1 j = enrichFuel disp f2 j := by
  intro f1
  induction f1 with
  | zero =>
    intro f2 _ j hj _
    have := jdepth_pos j
    omega
  | succ n ihn =>
    intro f2 hle j hj hwf
    obtain ⟨m, rfl⟩ : ∃ m, f2 = m + 1 := ⟨f2 - 1, by omega⟩
    have hnm : n ≤ m := by omega
    cases j with
    | null => rfl
    | bool b => rfl
    | num s => rfl
    | str s => rfl
    | arr xs =>
      simp only [jdepth] at hj
      simp only [recordWF] at hwf
      simp only [enrichFuel]
      rw [exceptMapList_congr (enrichFuel disp n) (enrichFuel disp m) xs ?_]
      intro x hx
      exact ihn m hnm x (le_trans (listDepth_mem xs x hx) (by omega))
        (recordWFList_mem xs hwf x hx)
    | obj fields =>
      simp only [jdepth] at hj
      simp only [recordWF, Bool.and_eq_true] at hwf
      obtain ⟨hguard0, hwff⟩ := hwf
      have hguard : ∀ cs, JSON.lookupJ fields "coding" = some (JSON.arr cs) →
          ∀ c ∈ cs, flatCoding c = true := by
        intro cs hcs
        rw [hcs] at hguard0
        simpa [List.all_eq_true] using hguard0
      obtain ⟨fields1, hstep, hd1, hwf1, _, _, _⟩ :=
        codingStep_wf disp hdisp fields hguard hwff
      simp only [enrichFuel, hstep]
      rw [exceptMapPairs_congr (enrichFuel disp n) (enrichFuel disp m) fields1 ?_]
      intro kv hkv
      refine ihn m hnm kv.2 ?_ (recordWFFields_mem fields1 hwf1 kv hkv)
      exact le_trans (fieldsDepth_mem fields1 kv hkv) (le_trans hd1 (by omega))

/-- C3: on a record of the spec shape (coding arrays hold flat coding
dicts) and for any display-lookup behaviour returning leaf values
(`get_display_name` yields a string or `None`), `_enrich_codings`
returns a result rather than raising; its reachable coding arrays
correspond positionally to the input ones (nothing removed or
reordered), and each coding is either unchanged — in particular when
it already has a truthy display, when it lacks `system`/`code`, or
when its lookup comes back falsy (a failed lookup is swallowed as
`None`) — or has its `display` entry filled, so that afterwards every
reachable coding has a `display` entry or is identical to its
pre-enrichment value. -/
theorem C3_enrich_never_fails (disp : JSON → JSON → JSON)
    (hdisp : ∀ s c, JSON.isLeaf (disp s c) = true)
    (resource : JSON) (hwf : recordWF resource = true) :
    ∃ r, enrich_codings disp resource = Except.ok r
      ∧ List.Forall₂ (List.Forall₂ (codingClaim disp))
          (codingBags resource) (codingBags r) := by
  obtain ⟨r, hpack⟩ := enrich_main disp hdisp (jdepth resource) resource (le_refl _) hwf
  exact ⟨r, hpack.1, hpack.2.2.2.2.2.1⟩

/-- Witness for C3: a concrete observation whose missing display gets
filled by a concrete oracle. -/
theorem C3_enrich_never_fails_witness :
    ∃ r, enrich_codings dispW recW = Except.ok r
      ∧ List.Forall₂ (List.Forall₂ (codingClaim dispW))
          (codingBags recW) (codingBags r) :=
  C3_enrich_never_fails dispW (fun _ _ => rfl) recW rfl

/-- C7: enrichment is idempotent — the display oracle being a fixed
function of the field values, enriching an already-enriched record
returns it unchanged, so applying `_enrich_codings` twice equals
applying it once and the second pass changes no display and no text. -/
theorem C7_enrich_idempotent (disp : JSON → JSON → JSON)
    (hdisp : ∀ s c, JSON.isLeaf (disp s c) = true)
    (resource r : JSON) (hwf : recordWF resource = true)
    (h : enrich_codings disp resource = Except.ok r) :
    enrich_codings disp r = Except.ok r := by
  obtain ⟨r0, hpack⟩ := enrich_main disp hdisp (jdepth resource) resource (le_refl _) hwf
  have hr : r0 = r := by
    have h1 := hpack.1
    simp only [enrich_codings] at h
    rw [h] at h1
    exact (Except.ok.inj h1).symm
  subst hr
  have hfix : enrichFuel disp (jdepth resource) r0 = .ok r0 := hpack.2.2.2.2.2.2
  have hdr : jdepth r0 ≤ jdepth resource := hpack.2.2.1
  have hwfr : recordWF r0 = true := hpack.2.1
  simp only [enrich_codings]
  rw [enrichFuel_congr disp hdisp (jdepth r0) (jdepth resource) hdr r0 (le_refl _) hwfr]
  exact hfix

/-- Witness for C7: enriching the concrete enriched observation again
returns it unchanged. -/
theorem C7_enrich_idempotent_witness :
    enrich_codings dispW recWE = Except.ok recWE :=
  C7_enrich_idempotent dispW (fun _ _ => rfl) recW recWE rfl rfl

/-- A dict coding is kept exactly when the C5 per-coding predicate
holds of it (and the check never raises on a dict). -/
theorem codingKeep_char (tx : MakeRequest) (parent_code system : String)
    (c : JSON) (hobj : isObjB c = true) :
    ∃ b, codingKeep tx parent_code system c = .ok b
      ∧ (b = true ↔ subsumesKeep tx parent_code system c) := by
  cases c with
  | obj f =>
    by_cases hsys : JSON.optIsStr (JSON.lookupJ f "system")
        (TerminologyService.get_code_system_url system) = true
    · cases hcb : JSON.lookupJ f "code" with
      | none =>
        refine ⟨false, by simp [codingKeep, hsys, hcb], ?_⟩
        refine ⟨fun hff => absurd hff (by simp), ?_⟩
        rintro ⟨f1, cb1, resp1, heq, _, hcb1, _, _⟩
        simp only [JSON.obj.injEq] at heq
        subst heq
        rw [hcb] at hcb1
        cases hcb1
      | some cb =>
        cases hsub : TerminologyService.check_subsumption tx parent_code cb system with
        | error e =>
          refine ⟨false, by simp [codingKeep, hsys, hcb, hsub], ?_⟩
          refine ⟨fun hff => absurd hff (by simp), ?_⟩
          rintro ⟨f1, cb1, resp1, heq, _, hcb1, hsub1, _⟩
          simp only [JSON.obj.injEq] at heq
          subst heq
          rw [hcb] at hcb1
          cases hcb1
          rw [hsub] at hsub1
          cases hsub1
        | ok resp =>
          refine ⟨respKeep resp, by simp [codingKeep, hsys, hcb, hsub], ?_⟩
          constructor
          · intro hk
            exact ⟨f, cb, resp, rfl, hsys, hcb, hsub, hk⟩
          · rintro ⟨f1, cb1, resp1, heq, _, hcb1, hsub1, hk1⟩
            simp only [JSON.obj.injEq] at heq
            subst heq
            rw [hcb] at hcb1
            cases hcb1
            rw [hsub] at hsub1
            cases hsub1
            exact hk1
    · refine ⟨false, ?_, ?_⟩
      · simp only [Bool.not_eq_true] at hsys
        simp [codingKeep, hsys]
      · refine ⟨fun hff => absurd hff (by simp), ?_⟩
        rintro ⟨f1, cb1, resp1, heq, hsys1, _, _, _⟩
        simp only [JSON.obj.injEq] at heq
        subst heq
        exact absurd hsys1 hsys
  | null => simp [isObjB] at hobj
  | bool b => simp [isObjB] at hobj
  | num s => simp [isObjB] at hobj
  | str s => simp [isObjB] at hobj
  | arr xs => simp [isObjB] at hobj

/-- The per-candidate append count over dict codings: it never raises
and is positive exactly when some coding satisfies the per-coding
predicate. -/
theorem codingsKeepCount_char (tx : MakeRequest) (parent_code system : String) :
    ∀ cs : List JSON, (∀ c ∈ cs, isObjB c = true) →
      ∃ n, codingsKeepCount tx parent_code system cs = .ok n
        ∧ (0 < n ↔ ∃ coding ∈ cs, subsumesKeep tx parent_code system coding)
  | [], _ => ⟨0, rfl, by simp⟩
  | c :: rest, h => by
    obtain ⟨b, hb, hbiff⟩ :=
      codingKeep_char tx parent_code system c (h c (List.mem_cons_self _ _))
    obtain ⟨n, hn, hniff⟩ := codingsKeepCount_char tx parent_code system rest
      (fun d hd => h d (List.mem_cons_of_mem _ hd))
    refine ⟨if b then n + 1 else n, ?_, ?_⟩
    · simp [codingsKeepCount, hb, hn]
    · cases b with
      | true =>
        simp only [if_true]
        constructor
        · intro _
          exact ⟨c, List.mem_cons_self _ _, hbiff.mp rfl⟩
        · intro _
          omega
      | false =>
        simp only [Bool.false_eq_true, if_false]
        rw [hniff]
        constructor
        · rintro ⟨coding, hm, hk⟩
          exact ⟨coding, List.mem_cons_of_mem _ hm, hk⟩
        · rintro ⟨coding, hm, hk⟩
          rcases List.mem_cons.mp hm with h1 | h1
          · subst h1
            exact absurd (hbiff.mpr hk) (by simp)
          · exact ⟨coding, h1, hk⟩

/-- The per-condition append count on a well-shaped candidate: it
never raises and is positive exactly when the C5 per-candidate
predicate holds. -/
theorem condKeepCount_char (tx : MakeRequest) (parent_code system : String)
    (c : JSON) (hwf : condShapeWF c = true) :
    ∃ n, condKeepCount tx parent_code system c = .ok n
      ∧ (0 < n ↔ condKeepPred tx parent_code system c) := by
  cases c with
  | obj cf =>
    simp only [condShapeWF] at hwf
    cases hcode : JSON.lookupJ cf "code" with
    | none =>
      refine ⟨0, by simp [condKeepCount, hcode], ?_⟩
      refine ⟨fun hff => absurd hff (by omega), ?_⟩
      rintro ⟨cf1, codef1, cs1, heq, hcode1, _, _⟩
      simp only [JSON.obj.injEq] at heq
      subst heq
      rw [hcode] at hcode1
      cases hcode1
    | some w =>
      rw [hcode] at hwf
      cases w with
      | obj codef =>
        have hwf2 : (match JSON.lookupJ codef "coding" with
            | none => true
            | some (JSON.arr cs) => cs.all isObjB
            | some _ => false) = true := hwf
        cases hcoding : JSON.lookupJ codef "coding" with
        | none =>
          refine ⟨0, by simp [condKeepCount, hcode, hcoding], ?_⟩
          refine ⟨fun hff => absurd hff (by omega), ?_⟩
          rintro ⟨cf1, codef1, cs1, heq, hcode1, hcoding1, _⟩
          simp only [JSON.obj.injEq] at heq
          subst heq
          rw [hcode] at hcode1
          cases hcode1
          rw [hcoding] at hcoding1
          cases hcoding1
        | some w2 =>
          rw [hcoding] at hwf2
          cases w2 with
          | arr cs =>
            simp only [List.all_eq_true] at hwf2
            obtain ⟨n, hn, hniff⟩ := codingsKeepCount_char tx parent_code system cs hwf2
            refine ⟨n, by simp [condKeepCount, hcode, hcoding, hn], ?_⟩
            rw [hniff]
            constructor
            · rintro ⟨coding, hm, hk⟩
              exact ⟨cf, codef, cs, rfl, hcode, hcoding, coding, hm, hk⟩
            · rintro ⟨cf1, codef1, cs1, heq, hcode1, hcoding1, coding, hm, hk⟩
              simp only [JSON.obj.injEq] at heq
              subst heq
              rw [hcode] at hcode1
              cases hcode1
              rw [hcoding] at hcoding1
              cases hcoding1
              exact ⟨coding, hm, hk⟩
          | null => exact absurd hwf2 (by simp)
          | bool b => exact absurd hwf2 (by simp)
          | num s => exact absurd hwf2 (by simp)
          | str s => exact absurd hwf2 (by simp)
          | obj g => exact absurd hwf2 (by simp)
      | null => exact Bool.noConfusion (show (false : Bool) = true from hwf)
      | bool b => exact Bool.noConfusion (show (false : Bool) = true from hwf)
      | num s => exact Bool.noConfusion (show (false : Bool) = true from hwf)
      | str s => exact Bool.noConfusion (show (false : Bool) = true from hwf)
      | arr xs => exact Bool.noConfusion (show (false : Bool) = true from hwf)
  | null => simp [condShapeWF] at hwf
  | bool b => simp [condShapeWF] at hwf
  | num s => simp [condShapeWF] at hwf
  | str s => simp [condShapeWF] at hwf
  | arr xs => simp [condShapeWF] at hwf

/-- The filtering loop on well-shaped candidates: it never raises, and
a candidate appears in the output exactly when it is an input
satisfying the C5 per-candidate predicate. -/
theorem relatedLoop_char (tx : MakeRequest) (parent_code system : String) :
    ∀ conds : List JSON, (∀ c ∈ conds, condShapeWF c = true) →
      ∃ related, relatedLoop tx parent_code system conds = .ok related
        ∧ ∀ c, c ∈ related ↔
            (c ∈ conds ∧ condKeepPred tx parent_code system c)
  | [], _ => ⟨[], rfl, by simp⟩
  | c :: rest, h => by
    obtain ⟨n, hn, hniff⟩ :=
      condKeepCount_char tx parent_code system c (h c (List.mem_cons_self _ _))
    obtain ⟨tail, htail, htiff⟩ := relatedLoop_char tx parent_code system rest
      (fun d hd => h d (List.mem_cons_of_mem _ hd))
    refine ⟨List.replicate n c ++ tail, by simp [relatedLoop, hn, htail], ?_⟩
    intro x
    simp only [List.mem_append, List.mem_replicate, htiff, List.mem_cons]
    constructor
    · rintro (⟨hne, rfl⟩ | ⟨hm, hk⟩)
      · exact ⟨Or.inl rfl, hniff.mp (by omega)⟩
      · exact ⟨Or.inr hm, hk⟩
    · rintro ⟨rfl | hm, hk⟩
      · left
        exact ⟨by have := hniff.mpr hk; omega, rfl⟩
      · right
        exact ⟨hm, hk⟩

/-- C5: in `find_related_conditions` a candidate condition appears in
the result exactly when one of its codings under the resolved system
URI yields a kept subsumption outcome (`subsumes` or `equivalent`); a
candidate all of whose such codings come back `not-subsumed` or
`subsumed-by` — or whose subsumption calls raise — is excluded, and a
raising subsumption call (every transport behaviour is quantified
here) never aborts the processing of the remaining codings and
candidates: the loop still returns a result. -/
theorem C5_find_related_membership (tx : MakeRequest) (bundle : JSON)
    (conds : List JSON) (disp : JSON → JSON → JSON) (parent_code system : String)
    (hx : extractResources bundle = .ok conds)
    (hwf : ∀ c ∈ conds, condShapeWF c = true) :
    ∃ related, relatedLoop tx parent_code system conds = .ok related
      ∧ (∀ c, c ∈ related ↔
          (c ∈ conds ∧ condKeepPred tx parent_code system c))
      ∧ find_related_conditions tx (.ok bundle) disp false parent_code system
          = .ok related := by
  obtain ⟨related, hrun, hmem⟩ := relatedLoop_char tx parent_code system conds hwf
  refine ⟨related, hrun, hmem, ?_⟩
  simp [find_related_conditions, hx, hrun]

/-- Witness for C5: a concrete bundle and a transport asserting
`subsumes` drive the hierarchy search at concrete inputs. -/
theorem C5_find_related_membership_witness :
    ∃ related, relatedLoop txSub "49601007" "snomed" [condW] = .ok related
      ∧ (∀ c, c ∈ related ↔
          (c ∈ [condW] ∧ condKeepPred txSub "49601007" "snomed" c))
      ∧ find_related_conditions txSub (.ok bundleW) dispW false "49601007" "snomed"
          = .ok related :=
  C5_find_related_membership txSub bundleW [condW] dispW "49601007" "snomed" rfl
    (fun c hc => by
      rw [List.mem_singleton] at hc
      subst hc
      rfl)

/-- The translation loop only ever appends: whatever it returns, the
list it started from is a prefix of it. -/
theorem translateLoop_extends (tx : MakeRequest) (tgt : String) :
    ∀ (fuel i : Nat) (cur final : List JSON),
      translateLoop tx tgt fuel i cur = .ok final → cur <+: final
  | 0, i, cur, final, h => by simp [translateLoop] at h
  | fuel + 1, i, cur, final, h => by
    simp only [translateLoop] at h
    by_cases hi : i < cur.length
    · rw [dif_pos hi] at h
      cases hgi : cur.get ⟨i, hi⟩ with
      | obj f =>
        simp only [hgi] at h
        cases htr : TerminologyService.translate_code tx
            ((JSON.lookupJ f "code").getD (JSON.str ""))
            ((JSON.lookupJ f "system").getD (JSON.str "")) tgt none with
        | error e =>
          simp only [htr] at h
          exact translateLoop_extends tx tgt fuel (i + 1) cur final h
        | ok resp =>
          simp only [htr] at h
          exact List.IsPrefix.trans (List.prefix_append cur _)
            (translateLoop_extends tx tgt fuel (i + 1) _ final h)
      | null => simp only [hgi] at h; simp at h
      | bool b => simp only [hgi] at h; simp at h
      | num s => simp only [hgi] at h; simp at h
      | str s => simp only [hgi] at h; simp at h
      | arr xs => simp only [hgi] at h; simp at h
    · rw [dif_neg hi] at h
      simp only [Except.ok.injEq] at h
      subst h
      exact List.prefix_refl _

/-- When no translation ever produces a concept (it raises or answers
with no match), the loop leaves the coding list unchanged: failures
are swallowed coding by coding and the remaining codings are still
processed. -/
theorem translateLoop_id (tx : MakeRequest) (tgt : String)
    (hno : ∀ cod src (r : JSON),
      TerminologyService.translate_code tx cod src tgt none = .ok r →
      bodyConcepts r = []) :
    ∀ (fuel i : Nat) (cur : List JSON), (∀ c ∈ cur, isObjB c = true) →
      cur.length ≤ i + fuel → translateLoop tx tgt (fuel + 1) i cur = .ok cur
  | fuel, i, cur, hobj, hlen => by
    simp only [translateLoop]
    by_cases hi : i < cur.length
    · rw [dif_pos hi]
      have hg : isObjB (cur.get ⟨i, hi⟩) = true := hobj _ (cur.get_mem _ _)
      cases hgi : cur.get ⟨i, hi⟩ with
      | obj f =>
        simp only [hgi]
        have hf1 : 1 ≤ fuel := by omega
        obtain ⟨m, rfl⟩ : ∃ m, fuel = m + 1 := ⟨fuel - 1, by omega⟩
        cases htr : TerminologyService.translate_code tx
            ((JSON.lookupJ f "code").getD (JSON.str ""))
            ((JSON.lookupJ f "system").getD (JSON.str "")) tgt none with
        | error e =>
          exact translateLoop_id tx tgt hno m (i + 1) cur hobj (by omega)
        | ok resp =>
          show translateLoop tx tgt (m + 1) (i + 1) (cur ++ bodyConcepts resp)
            = Except.ok cur
          rw [hno _ _ _ htr, List.append_nil]
          exact translateLoop_id tx tgt hno m (i + 1) cur hobj (by omega)
      | null => rw [hgi] at hg; simp [isObjB] at hg
      | bool b => rw [hgi] at hg; simp [isObjB] at hg
      | num s => rw [hgi] at hg; simp [isObjB] at hg
      | str s => rw [hgi] at hg; simp [isObjB] at hg
      | arr xs => rw [hgi] at hg; simp [isObjB] at hg
    · rw [dif_neg hi]

/-- C6: `translate_condition_codes` never removes or modifies a coding
present before the call — on any successful run the original codings
stay, in order, as a prefix of the final coding list and translations
only append after them; when every translation returns no match the
condition comes back identical and no exception is raised; and when
every translation raises, the failures are all caught, the remaining
codings are still processed, and the condition again comes back
identical. -/
theorem C6_translate_appends_only (tx : MakeRequest) (tgt : String) (fuel : Nat)
    (cf codef : List (String × JSON)) (cs : List JSON)
    (hcode : JSON.lookupJ cf "code" = some (JSON.obj codef))
    (hcoding : JSON.lookupJ codef "coding" = some (JSON.arr cs)) :
    (∀ result, translate_condition_codes tx tgt fuel (JSON.obj cf) = .ok result →
      ∃ extra, result = JSON.obj (JSON.setKey cf "code"
        (JSON.obj (JSON.setKey codef "coding" (JSON.arr (cs ++ extra))))))
    ∧ ((∀ cod src (r : JSON),
          TerminologyService.translate_code tx cod src tgt none = .ok r →
          bodyConcepts r = []) →
        (∀ c ∈ cs, isObjB c = true) → cs.length ≤ fuel →
        translate_condition_codes tx tgt (fuel + 1) (JSON.obj cf) = .ok (JSON.obj cf))
    ∧ ((∀ cod src, ∃ e, TerminologyService.translate_code tx cod src tgt none
          = Except.error e) →
        (∀ c ∈ cs, isObjB c = true) → cs.length ≤ fuel →
        translate_condition_codes tx tgt (fuel + 1) (JSON.obj cf) = .ok (JSON.obj cf)) := by
  have hid : ∀ (hno : ∀ cod src (r : JSON),
        TerminologyService.translate_code tx cod src tgt none = .ok r →
        bodyConcepts r = []),
      (∀ c ∈ cs, isObjB c = true) → cs.length ≤ fuel →
      translate_condition_codes tx tgt (fuel + 1) (JSON.obj cf) = .ok (JSON.obj cf) := by
    intro hno hobj hlen
    have hloop := translateLoop_id tx tgt hno fuel 0 cs hobj (by omega)
    simp only [translate_condition_codes, hcode, hcoding, hloop]
    rw [setKey_self codef "coding" (JSON.arr cs) hcoding,
      setKey_self cf "code" (JSON.obj codef) hcode]
  refine ⟨?_, hid, ?_⟩
  · intro result h
    simp only [translate_condition_codes, hcode, hcoding] at h
    cases hloop : translateLoop tx tgt fuel 0 cs with
    | error e => rw [hloop] at h; simp at h
    | ok final =>
      rw [hloop] at h
      simp only [Except.ok.injEq] at h
      obtain ⟨extra, hext⟩ := translateLoop_extends tx tgt fuel 0 cs final hloop
      subst hext
      exact ⟨extra, h.symm⟩
  · intro herr hobj hlen
    refine hid ?_ hobj hlen
    intro cod src r hok
    obtain ⟨e, he⟩ := herr cod src
    rw [he] at hok
    cases hok

/-- Witness for C6: with a dead terminology transport every
translation raises, and the concrete condition comes back unchanged
with its original coding intact. -/
theorem C6_translate_appends_only_witness :
    translate_condition_codes txDown "snomed" 2
        (JSON.obj [("resourceType", JSON.str "Condition"),
          ("code", JSON.obj
            [("coding", JSON.arr [JSON.obj
               [("system", JSON.str "http://hl7.org/fhir/sid/icd-10"),
                ("code", JSON.str "I10")]])])])
      = Except.ok (JSON.obj [("resourceType", JSON.str "Condition"),
          ("code", JSON.obj
            [("coding", JSON.arr [JSON.obj
               [("system", JSON.str "http://hl7.org/fhir/sid/icd-10"),
                ("code", JSON.str "I10")]])])]) :=
  (C6_translate_appends_only txDown "snomed" 1
      [("resourceType", JSON.str "Condition"),
       ("code", JSON.obj
         [("coding", JSON.arr [JSON.obj
            [("system", JSON.str "http://hl7.org/fhir/sid/icd-10"),
             ("code", JSON.str "I10")]])])]
      [("coding", JSON.arr [JSON.obj
         [("system", JSON.str "http://hl7.org/fhir/sid/icd-10"),
          ("code", JSON.str "I10")]])]
      [JSON.obj [("system", JSON.str "http://hl7.org/fhir/sid/icd-10"),
        ("code", JSON.str "I10")]]
      rfl rfl).2.2
    (fun cod src => by
      cases src <;> exact ⟨_, rfl⟩)
    (fun c hc => by
      rw [List.mem_singleton] at hc
      subst hc
      rfl)
    (by simp)
